import Mathlib

/-!
Shallow embedding of the wikitext-to-Markdown transducer of
`src/preprocessing/utils.py` (Tamil-LLM repository), together with proofs
settling the frozen claims about it.  Text is modelled as `List Char`; each
Python `re` substitution is embedded as the deterministic character scanner
that the concrete pattern denotes (leftmost match, greedy/lazy resolution as
the pattern dictates, one-character advance on a failed match attempt).
Scanners run on structural fuel (at least the text length) so that every
definition is kernel-computable; `scanF_congr` shows the fuel is irrelevant
once sufficient.  Python's `str.strip`/`\s` whitespace is modelled by its
ASCII members, `str.lower` by `Char.toLower` (ASCII case folding; the Tamil
letters appearing in the source's vocabularies have no case), and `\w` word
characters by ASCII alphanumerics, underscore and all non-ASCII characters
(Tamil letters included); the concrete inputs evaluated below stay inside
the range where these agree with Python.
-/

namespace TamilLLM

/-- The apostrophe character of MediaWiki emphasis markup. -/
def apos : Char := '\''

/-- Python whitespace (`\s`, `str.strip()` default set), ASCII members. -/
def pyWs (c : Char) : Bool :=
  c = ' ' || c = '\t' || c = '\n' || c = '\r' || c = '\x0b' || c = '\x0c'

/-- `startsWithL pat u`: `u` begins with `pat`. -/
def startsWithL : List Char → List Char → Bool
  | [], _ => true
  | _ :: _, [] => false
  | p :: ps, c :: cs => p = c && startsWithL ps cs

/-- Python `str.strip()`: drop whitespace at both ends. -/
def pyStrip (u : List Char) : List Char :=
  ((u.dropWhile pyWs).reverse.dropWhile pyWs).reverse

/-- Python `str.lstrip(chars)`: drop the given characters from the left. -/
def pyLstrip (chars : List Char) (u : List Char) : List Char :=
  u.dropWhile (fun c => chars.contains c)

/-- A matcher: at the current position, either `some (replacement, rest)` —
the match's replacement text and the text after the match — or `none`. -/
def Matcher : Type := List Char → Option (List Char × List Char)

/-- A matcher whose matches always consume at least one character. -/
def Shrinks (tm : Matcher) : Prop :=
  ∀ c cs repl rest, tm (c :: cs) = some (repl, rest) → rest.length ≤ cs.length

/-- One `re.sub` pass as a scanner: at each position try the matcher; on a
match emit the replacement and continue after it, otherwise emit one
character and advance.  Structural fuel keeps it kernel-computable. -/
def scanF (tm : Matcher) : Nat → List Char → List Char
  | _, [] => []
  | 0, u => u
  | f + 1, c :: cs =>
    match tm (c :: cs) with
    | some (repl, rest) => repl ++ scanF tm f rest
    | none => c :: scanF tm f cs

/-- `scan tm u`: the full substitution pass over `u`. -/
def scan (tm : Matcher) (u : List Char) : List Char :=
  scanF tm u.length u

theorem scanF_congr {tm : Matcher} (hs : Shrinks tm) :
    ∀ (f f' : Nat) (u : List Char), u.length ≤ f → u.length ≤ f' →
      scanF tm f u = scanF tm f' u := by
  intro f
  induction f with
  | zero =>
    intro f' u hu _
    obtain rfl : u = [] := List.length_eq_zero.mp (Nat.le_zero.mp hu)
    cases f' <;> rfl
  | succ f ih =>
    intro f' u hu hu'
    cases u with
    | nil => cases f' <;> rfl
    | cons c cs =>
      cases f' with
      | zero => simp at hu'
      | succ f' =>
        rw [scanF, scanF]
        rcases htm : tm (c :: cs) with _ | ⟨repl, rest⟩
        · dsimp only
          simp only [List.length_cons] at hu hu'
          rw [ih f' cs (by omega) (by omega)]
        · have hlen := hs c cs repl rest htm
          dsimp only
          simp only [List.length_cons] at hu hu'
          rw [ih f' rest (by omega) (by omega)]

theorem scan_nil (tm : Matcher) : scan tm [] = [] := rfl

theorem scan_cons_none {tm : Matcher} {c : Char} {cs : List Char}
    (h : tm (c :: cs) = none) : scan tm (c :: cs) = c :: scan tm cs := by
  show scanF tm (cs.length + 1) (c :: cs) = _
  rw [scanF, h]
  rfl

theorem scan_cons_some {tm : Matcher} (hs : Shrinks tm) {c : Char}
    {cs repl rest : List Char} (h : tm (c :: cs) = some (repl, rest)) :
    scan tm (c :: cs) = repl ++ scan tm rest := by
  show scanF tm (cs.length + 1) (c :: cs) = _
  rw [scanF, h]
  dsimp only
  rw [scanF_congr hs cs.length rest.length rest (hs c cs repl rest h) le_rfl]
  rfl

/-! ### convert_formatting -/

/-- `aposRun k u`: `u` begins with `k` apostrophes. -/
def aposRun : Nat → List Char → Bool
  | 0, _ => true
  | _ + 1, [] => false
  | k + 1, c :: cs => c = apos && aposRun k cs

/-- Lazy search for the close marker of `(.*?)'…'` with `k+1` apostrophes:
`.` does not match a newline (these substitutions carry no DOTALL flag), the
close marker is tried before a character is consumed (non-greedy), and the
capture together with the remainder after the close marker is returned. -/
def findClose (k : Nat) : List Char → Option (List Char × List Char)
  | [] => none
  | c :: cs =>
    if aposRun (k + 1) (c :: cs) then some ([], (c :: cs).drop (k + 1))
    else if c = '\n' then none
    else (findClose k cs).map (fun p => (c :: p.1, p.2))

/-- The matcher of the pattern `'{k+1 apostrophes}(.*?){k+1 apostrophes}'`
with replacement `stars ++ capture ++ stars`. -/
def tryApos (k : Nat) (stars : List Char) : Matcher := fun u =>
  if aposRun (k + 1) u then
    (findClose k (u.drop (k + 1))).map (fun p => (stars ++ p.1 ++ stars, p.2))
  else none

/-- One `re.sub` pass of an emphasis rule. -/
def subApos (k : Nat) (stars : List Char) : List Char → List Char :=
  scan (tryApos k stars)

theorem aposRun_le {k : Nat} {u : List Char} (h : aposRun k u = true) :
    k ≤ u.length := by
  induction k generalizing u with
  | zero => exact Nat.zero_le _
  | succ k ih =>
    cases u with
    | nil => simp [aposRun] at h
    | cons c cs =>
      simp only [aposRun, Bool.and_eq_true] at h
      simpa [List.length_cons, Nat.succ_le_succ_iff] using ih h.2

theorem findClose_length {k : Nat} {u cap rest : List Char}
    (h : findClose k u = some (cap, rest)) :
    cap.length + (k + 1) + rest.length = u.length := by
  induction u generalizing cap rest with
  | nil => simp [findClose] at h
  | cons c cs ih =>
    rw [findClose] at h
    by_cases hr : aposRun (k + 1) (c :: cs) = true
    · rw [if_pos hr] at h
      obtain ⟨hc, hrest⟩ := Prod.mk.injEq .. ▸ Option.some.inj h
      subst hc
      subst hrest
      have hk := aposRun_le hr
      simp only [List.length_drop, List.length_nil]
      omega
    · rw [if_neg hr] at h
      by_cases hn : c = '\n'
      · rw [if_pos hn] at h
        exact absurd h (by simp)
      · rw [if_neg hn, Option.map_eq_some'] at h
        obtain ⟨⟨cap', rest'⟩, hfc, heq⟩ := h
        simp only [Prod.mk.injEq] at heq
        obtain ⟨hc, hrest⟩ := heq
        subst hc
        subst hrest
        have hrec := ih hfc
        simp only [List.length_cons]
        omega

theorem tryApos_shrinks (k : Nat) (stars : List Char) :
    Shrinks (tryApos k stars) := by
  intro c cs repl rest h
  rw [tryApos] at h
  by_cases hr : aposRun (k + 1) (c :: cs) = true
  · rw [if_pos hr, Option.map_eq_some'] at h
    obtain ⟨⟨cap, rest'⟩, hfc, heq⟩ := h
    simp only [Prod.mk.injEq] at heq
    have hlen := findClose_length hfc
    simp only [List.length_drop, List.length_cons] at hlen
    rw [← heq.2]
    omega
  · rw [if_neg hr] at h
    exact absurd h (by simp)

theorem subApos_nil (k : Nat) (stars : List Char) : subApos k stars [] = [] := rfl

theorem subApos_no_open {k : Nat} {stars : List Char} {c : Char} {cs : List Char}
    (hr : aposRun (k + 1) (c :: cs) = false) :
    subApos k stars (c :: cs) = c :: subApos k stars cs :=
  scan_cons_none (by rw [tryApos, if_neg (by rw [hr]; exact Bool.false_ne_true)])

theorem subApos_no_close {k : Nat} {stars : List Char} {c : Char} {cs : List Char}
    (hr : aposRun (k + 1) (c :: cs) = true)
    (hfc : findClose k ((c :: cs).drop (k + 1)) = none) :
    subApos k stars (c :: cs) = c :: subApos k stars cs :=
  scan_cons_none (by rw [tryApos, if_pos hr, hfc]; rfl)

theorem subApos_close {k : Nat} {stars : List Char} {c : Char}
    {cs cap rest : List Char}
    (hr : aposRun (k + 1) (c :: cs) = true)
    (hfc : findClose k ((c :: cs).drop (k + 1)) = some (cap, rest)) :
    subApos k stars (c :: cs) = stars ++ cap ++ stars ++ subApos k stars rest := by
  have h := scan_cons_some (tryApos_shrinks k stars)
    (show tryApos k stars (c :: cs) = some (stars ++ cap ++ stars, rest) by
      rw [tryApos, if_pos hr, hfc]
      rfl)
  show scan (tryApos k stars) (c :: cs) = _
  rw [h]
  show _ = stars ++ cap ++ stars ++ scan (tryApos k stars) rest
  simp

/-- `convert_formatting` on character lists: the three substitutions of the
source, five-apostrophe markers first, then three, then two. -/
def convert_formatting_list (u : List Char) : List Char :=
  subApos 1 ['*'] (subApos 2 ['*', '*'] (subApos 4 ['*', '*', '*'] u))

/-- `convert_formatting(text)`: MediaWiki bold/italic markup to Markdown. -/
def convert_formatting (s : String) : String :=
  (convert_formatting_list s.toList).asString

/-- A two-apostrophe emphasis match exists somewhere in the text: an
apostrophe pair, and a closing pair later with no intervening newline.  Any
`''…''`, `'''…'''` or `'''''…'''''` match contains such a configuration. -/
def hasM2 : List Char → Bool
  | a :: b :: r => (a = apos && b = apos && (findClose 1 r).isSome) || hasM2 (b :: r)
  | _ => false

/-- No two adjacent apostrophes anywhere. -/
def pairFree : List Char → Bool
  | a :: b :: r => !(a = apos && b = apos) && pairFree (b :: r)
  | _ => true

theorem hasM2_tail {c : Char} {cs : List Char} (h : hasM2 (c :: cs) = false) :
    hasM2 cs = false := by
  cases cs with
  | nil => rfl
  | cons b r =>
    rw [hasM2, Bool.or_eq_false_iff] at h
    exact h.2

theorem pairFree_tail {c : Char} {cs : List Char} (h : pairFree (c :: cs) = true) :
    pairFree cs = true := by
  cases cs with
  | nil => rfl
  | cons b r =>
    rw [pairFree, Bool.and_eq_true] at h
    exact h.2

/-- The first character of a `subApos` output on a cons is the input's first
character or the replacement's first character. -/
theorem subApos_cons_shape (k : Nat) (s0 : Char) (ss : List Char) (c : Char)
    (cs : List Char) :
    (∃ t, subApos k (s0 :: ss) (c :: cs) = c :: t) ∨
    (∃ t, subApos k (s0 :: ss) (c :: cs) = s0 :: t) := by
  by_cases hr : aposRun (k + 1) (c :: cs) = true
  · rcases hfc : findClose k ((c :: cs).drop (k + 1)) with _ | ⟨cap, rest⟩
    · exact Or.inl ⟨_, subApos_no_close hr hfc⟩
    · right
      refine ⟨ss ++ cap ++ (s0 :: ss) ++ subApos k (s0 :: ss) rest, ?_⟩
      rw [subApos_close hr hfc]
      simp
  · exact Or.inl ⟨_, subApos_no_open (by simpa using hr)⟩

theorem aposRun_mono {j k : Nat} (hjk : j ≤ k) :
    ∀ {u : List Char}, aposRun k u = true → aposRun j u = true := by
  induction k generalizing j with
  | zero =>
    intro u h
    obtain rfl : j = 0 := Nat.le_zero.mp hjk
    rfl
  | succ k ih =>
    intro u h
    cases u with
    | nil => simp [aposRun] at h
    | cons c cs =>
      simp only [aposRun, Bool.and_eq_true] at h
      cases j with
      | zero => rfl
      | succ j =>
        simp only [aposRun, Bool.and_eq_true]
        exact ⟨h.1, ih (Nat.succ_le_succ_iff.mp hjk) h.2⟩

theorem aposRun_two_false_snd {c d : Char} (t : List Char) (hd : d ≠ apos) :
    aposRun 2 (c :: d :: t) = false := by
  rw [aposRun, aposRun]
  simp [hd]

theorem aposRun_two_false_fst {c : Char} (t : List Char) (hc : c ≠ apos) :
    aposRun 2 (c :: t) = false := by
  rw [aposRun]
  cases t <;> simp [hc]

theorem aposRun_two_of_pair {c d : Char} (t : List Char) (hc : c = apos)
    (hd : d = apos) : aposRun 2 (c :: d :: t) = true := by
  rw [aposRun, aposRun, aposRun]
  simp [hc, hd]

/-- A nonempty capture starts with the scanned text's first character. -/
theorem findClose_cap_head {k : Nat} {u cap rest : List Char} {e : Char}
    (h : findClose k u = some (e :: cap, rest)) : ∃ v, u = e :: v := by
  cases u with
  | nil => simp [findClose] at h
  | cons c cs =>
    rw [findClose] at h
    by_cases hr : aposRun (k + 1) (c :: cs) = true
    · rw [if_pos hr] at h
      simp at h
    · rw [if_neg hr] at h
      by_cases hn : c = '\n'
      · rw [if_pos hn] at h
        simp at h
      · rw [if_neg hn, Option.map_eq_some'] at h
        obtain ⟨⟨cap', rest'⟩, _, heq⟩ := h
        simp only [Prod.mk.injEq, List.cons.injEq] at heq
        exact ⟨cs, by rw [heq.1.1]⟩

/-- The lazy capture of a two-apostrophe close contains no apostrophe pair. -/
theorem findClose_cap_pairFree {u cap rest : List Char}
    (h : findClose 1 u = some (cap, rest)) : pairFree cap = true := by
  induction u generalizing cap rest with
  | nil => simp [findClose] at h
  | cons c cs ih =>
    rw [findClose] at h
    by_cases hr : aposRun 2 (c :: cs) = true
    · rw [if_pos hr] at h
      obtain ⟨hc, _⟩ := Prod.mk.injEq .. ▸ Option.some.inj h
      rw [← hc]
      rfl
    · rw [if_neg hr] at h
      by_cases hn : c = '\n'
      · rw [if_pos hn] at h
        simp at h
      · rw [if_neg hn, Option.map_eq_some'] at h
        obtain ⟨⟨cap', rest'⟩, hfc, heq⟩ := h
        simp only [Prod.mk.injEq] at heq
        obtain ⟨hc, hrest⟩ := heq
        subst hc
        cases cap' with
        | nil => rfl
        | cons e cap'' =>
          obtain ⟨v, hv⟩ := findClose_cap_head hfc
          rw [pairFree, Bool.and_eq_true]
          refine ⟨?_, ih hfc⟩
          have hne : ¬(c = apos ∧ e = apos) := by
            intro ⟨h1, h2⟩
            rw [hv] at hr
            exact hr (aposRun_two_of_pair v h1 h2)
          simp only [Bool.not_eq_eq_eq_not, Bool.not_true, Bool.and_eq_false_iff]
          by_cases h1 : c = apos
          · right
            simp only [decide_eq_false_iff_not]
            exact fun h2 => hne ⟨h1, h2⟩
          · left
            simp only [decide_eq_false_iff_not]
            exact h1

/-- Walking over a pair-free block followed by a star changes no `hasM2`
verdict: matches can only live in the tail. -/
theorem hasM2_append_star (p ys : List Char) (hp : pairFree p = true) :
    hasM2 (p ++ '*' :: ys) = hasM2 ys := by
  induction p with
  | nil =>
    cases ys with
    | nil => rfl
    | cons y ys' =>
      show hasM2 ('*' :: y :: ys') = hasM2 (y :: ys')
      rw [hasM2]
      simp [apos]
  | cons a p' ih =>
    have hp' := pairFree_tail hp
    have htail : hasM2 (p' ++ '*' :: ys) = hasM2 ys := ih hp'
    show hasM2 (a :: (p' ++ '*' :: ys)) = hasM2 ys
    cases p' with
    | nil =>
      show hasM2 (a :: '*' :: ys) = hasM2 ys
      rw [hasM2]
      have hfalse : (decide (a = apos) && decide ('*' = apos) &&
          (findClose 1 ys).isSome) = false := by
        have h0 : (decide ('*' = apos)) = false := by decide
        rw [h0, Bool.and_false, Bool.false_and]
      rw [hfalse, Bool.false_or]
      exact htail
    | cons b p'' =>
      show hasM2 (a :: b :: (p'' ++ '*' :: ys)) = hasM2 ys
      rw [hasM2]
      rw [show hasM2 (b :: (p'' ++ '*' :: ys)) = hasM2 ys from htail]
      rw [pairFree, Bool.and_eq_true, Bool.not_eq_eq_eq_not, Bool.not_true,
        Bool.and_eq_false_iff] at hp
      rcases hp.1 with h1 | h1 <;> simp [h1]

/-- Prefixing newline-free characters preserves the existence of a close. -/
theorem findClose_isSome_append {xs v : List Char}
    (hx : ∀ c ∈ xs, c ≠ '\n') (hv : (findClose 1 v).isSome = true) :
    (findClose 1 (xs ++ v)).isSome = true := by
  induction xs with
  | nil => simpa using hv
  | cons x xs' ih =>
    have hx' : ∀ c ∈ xs', c ≠ '\n' := fun c hc => hx c (List.mem_cons_of_mem _ hc)
    have hxn : x ≠ '\n' := hx x (List.mem_cons_self x xs')
    show (findClose 1 (x :: (xs' ++ v))).isSome = true
    rw [findClose]
    by_cases hr : aposRun 2 (x :: (xs' ++ v)) = true
    · rw [if_pos hr]
      rfl
    · rw [if_neg hr, if_neg hxn]
      have hs := ih hx'
      rcases hsome : findClose 1 (xs' ++ v) with _ | p
      · rw [hsome] at hs
        simp at hs
      · simp [hsome]

/-- A close for a longer marker yields a close for the pair marker. -/
theorem findClose_isSome_of_le {k : Nat} (hk : 1 ≤ k) :
    ∀ {v : List Char}, (findClose k v).isSome = true →
      (findClose 1 v).isSome = true := by
  intro v
  induction v with
  | nil => simp [findClose]
  | cons c cs ih =>
    intro h
    rw [findClose] at h
    rw [findClose]
    by_cases hr : aposRun (k + 1) (c :: cs) = true
    · rw [if_pos (aposRun_mono (by omega) hr)]
      rfl
    · rw [if_neg hr] at h
      by_cases hn : c = '\n'
      · rw [if_pos hn] at h
        simp at h
      · rw [if_neg hn] at h
        rw [Option.isSome_map'] at h
        by_cases hr2 : aposRun 2 (c :: cs) = true
        · rw [if_pos hr2]
          rfl
        · rw [if_neg hr2, if_neg hn, Option.isSome_map']
          exact ih h

theorem findClose_none_elim {k : Nat} {c : Char} {cs : List Char}
    (h : findClose k (c :: cs) = none) :
    aposRun (k + 1) (c :: cs) = false ∧ (c = '\n' ∨ findClose k cs = none) := by
  rw [findClose] at h
  by_cases hr : aposRun (k + 1) (c :: cs) = true
  · rw [if_pos hr] at h
    exact absurd h (by simp)
  · refine ⟨by simpa using hr, ?_⟩
    rw [if_neg hr] at h
    by_cases hn : c = '\n'
    · exact Or.inl hn
    · rw [if_neg hn, Option.map_eq_none'] at h
      exact Or.inr h

/-- If the text has no apostrophe pair before its first newline, neither does
the output of the italic pass: the pass copies such a region verbatim. -/
theorem findClose_none_sub2 : ∀ {u : List Char}, findClose 1 u = none →
    findClose 1 (subApos 1 ['*'] u) = none := by
  intro u
  induction u with
  | nil =>
    intro _
    rw [subApos_nil]
    rfl
  | cons c cs ih =>
    intro h
    obtain ⟨hr, hrest⟩ := findClose_none_elim h
    rw [subApos_no_open hr]
    rw [findClose]
    have hr2 : aposRun 2 (c :: subApos 1 ['*'] cs) = false := by
      by_cases hc : c = apos
      · cases cs with
        | nil =>
          rw [subApos_nil]
          rw [aposRun, aposRun]
          simp
        | cons d cs' =>
          have hd : d ≠ apos := by
            intro hd
            rw [aposRun_two_of_pair cs' hc hd] at hr
            exact Bool.true_eq_false ▸ hr
          rcases subApos_cons_shape 1 '*' [] d cs' with ⟨t, ht⟩ | ⟨t, ht⟩
          · rw [ht]
            exact aposRun_two_false_snd t hd
          · rw [ht]
            exact aposRun_two_false_snd t (by decide)
      · exact aposRun_two_false_fst _ hc
    rw [if_neg (by rw [hr2]; exact Bool.false_ne_true)]
    by_cases hn : c = '\n'
    · rw [if_pos hn]
    · rw [if_neg hn]
      rcases hrest with hn' | hcs
      · exact absurd hn' hn
      · rw [ih hcs]
        rfl

theorem hasM2_cons_of_head_ne {y x : Char} {xs : List Char} (hx : x ≠ apos)
    (h : hasM2 (x :: xs) = false) : hasM2 (y :: x :: xs) = false := by
  rw [hasM2]
  simp [hx, h]

theorem hasM2_cons_of_none {y x : Char} {xs : List Char}
    (hn : (findClose 1 xs).isSome = false)
    (h : hasM2 (x :: xs) = false) : hasM2 (y :: x :: xs) = false := by
  rw [hasM2]
  simp [hn, h]

theorem hasM2_cons_of_fst_ne {y : Char} {X : List Char} (hy : y ≠ apos)
    (hX : hasM2 X = false) : hasM2 (y :: X) = false := by
  cases X with
  | nil => rfl
  | cons x xs =>
    rw [hasM2]
    simp [hy, hX]

theorem hasM2_cons_safe {y : Char} {X : List Char}
    (hX : hasM2 X = false)
    (hhead : ∀ x xs, X = x :: xs → x ≠ apos) :
    hasM2 (y :: X) = false := by
  cases X with
  | nil => rfl
  | cons x xs =>
    exact hasM2_cons_of_head_ne (hhead x xs rfl) hX

theorem sub2_head_ne (d : Char) (cs' : List Char) (hd : d ≠ apos) :
    ∃ x xs, subApos 1 ['*'] (d :: cs') = x :: xs ∧ x ≠ apos := by
  rcases subApos_cons_shape 1 '*' [] d cs' with ⟨t, ht⟩ | ⟨t, ht⟩
  · exact ⟨d, t, ht, hd⟩
  · exact ⟨'*', t, ht, by decide⟩

theorem pairFree_cons_of_ne {c : Char} {cs : List Char} (hc : c ≠ apos)
    (h : pairFree cs = true) : pairFree (c :: cs) = true := by
  cases cs with
  | nil => rfl
  | cons d r =>
    rw [pairFree, Bool.and_eq_true]
    exact ⟨by simp [hc], h⟩

/-- The central invariant: the italic pass leaves no two-apostrophe match
anywhere in its output, so a second run of any of the three emphasis passes
finds nothing to rewrite. -/
theorem hasM2_sub2 : ∀ (n : Nat) (u : List Char), u.length ≤ n →
    hasM2 (subApos 1 ['*'] u) = false := by
  intro n
  induction n with
  | zero =>
    intro u hu
    obtain rfl : u = [] := List.length_eq_zero.mp (Nat.le_zero.mp hu)
    rw [subApos_nil]
    rfl
  | succ n ih =>
    intro u hu
    match u with
    | [] =>
      rw [subApos_nil]
      rfl
    | [c] =>
      have hr : aposRun 2 [c] = false := by
        rw [aposRun, aposRun]
        simp
      rw [subApos_no_open hr, subApos_nil]
      rfl
    | a :: b :: t =>
      by_cases hab : a = apos ∧ b = apos
      · have hr : aposRun 2 (a :: b :: t) = true := aposRun_two_of_pair t hab.1 hab.2
        rcases hfc : findClose 1 ((a :: b :: t).drop 2) with _ | ⟨cap, rest⟩
        · -- open pair, but no close before the next newline
          have hfct : findClose 1 t = none := hfc
          rw [subApos_no_close hr hfc]
          cases t with
          | nil =>
            have h1 : subApos 1 ['*'] [b] = [b] := by
              rw [subApos_no_open (by rw [aposRun, aposRun]; simp), subApos_nil]
            rw [h1]
            rw [hasM2]
            simp [findClose, hasM2]
          | cons c0 t0 =>
            obtain ⟨hrt, hrest⟩ := findClose_none_elim hfct
            by_cases hc0 : c0 = apos
            · -- a run of at least three apostrophes with no close anywhere
              have hn0 : findClose 1 t0 = none := by
                rcases hrest with hn' | h0
                · exact absurd (hc0 ▸ hn') (by decide)
                · exact h0
              have ht0 : ∀ x xs, t0 = x :: xs → x ≠ apos := by
                intro x xs hx hxa
                rw [hx] at hrt
                rw [aposRun_two_of_pair xs hc0 hxa] at hrt
                exact Bool.true_eq_false ▸ hrt
              have hsub_t : subApos 1 ['*'] (c0 :: t0) = c0 :: subApos 1 ['*'] t0 :=
                subApos_no_open hrt
              have hsub_bt : subApos 1 ['*'] (b :: c0 :: t0) =
                  b :: subApos 1 ['*'] (c0 :: t0) :=
                subApos_no_close (aposRun_two_of_pair _ hab.2 hc0)
                  (by simpa using hn0)
              rw [hsub_bt, hsub_t]
              -- output: a :: b :: c0 :: sub2 t0
              have hX0none : findClose 1 (subApos 1 ['*'] t0) = none :=
                findClose_none_sub2 hn0
              have hX0head : ∀ x xs, subApos 1 ['*'] t0 = x :: xs → x ≠ apos := by
                intro x xs hx
                cases t0 with
                | nil =>
                  rw [subApos_nil] at hx
                  exact absurd hx (by simp)
                | cons d cs' =>
                  obtain ⟨x', xs', hx', hne⟩ := sub2_head_ne d cs' (ht0 d cs' rfl)
                  rw [hx'] at hx
                  obtain ⟨h1, _⟩ := List.cons.injEq .. ▸ hx
                  rw [← h1]
                  exact hne
              have hM0 : hasM2 (subApos 1 ['*'] t0) = false := by
                refine ih t0 ?_
                simp only [List.length_cons] at hu
                omega
              have hq : hasM2 (c0 :: subApos 1 ['*'] t0) = false :=
                hasM2_cons_safe hM0 hX0head
              have hqq : hasM2 (b :: c0 :: subApos 1 ['*'] t0) = false :=
                hasM2_cons_of_none (by rw [hX0none]; rfl) hq
              refine hasM2_cons_of_none ?_ hqq
              have hnone2 : findClose 1 (c0 :: subApos 1 ['*'] t0) = none := by
                rw [findClose]
                have hr2 : aposRun 2 (c0 :: subApos 1 ['*'] t0) = false := by
                  cases hX : subApos 1 ['*'] t0 with
                  | nil =>
                    rw [aposRun, aposRun]
                    simp
                  | cons x xs =>
                    exact aposRun_two_false_snd xs (hX0head x xs hX)
                rw [if_neg (by rw [hr2]; exact Bool.false_ne_true)]
                rw [if_neg (show ¬c0 = '\n' by rw [hc0]; decide)]
                rw [hX0none]
                rfl
              rw [hnone2]
              rfl
            · -- the character after the pair is not an apostrophe
              have hsub_bt : subApos 1 ['*'] (b :: c0 :: t0) =
                  b :: subApos 1 ['*'] (c0 :: t0) :=
                subApos_no_open (aposRun_two_false_snd t0 hc0)
              rw [hsub_bt]
              have hM : hasM2 (subApos 1 ['*'] (c0 :: t0)) = false := by
                refine ih (c0 :: t0) ?_
                simp only [List.length_cons] at hu ⊢
                omega
              obtain ⟨x, xs, hx, hne⟩ := sub2_head_ne c0 t0 hc0
              have hq : hasM2 (b :: subApos 1 ['*'] (c0 :: t0)) = false := by
                rw [hx]
                exact hasM2_cons_of_head_ne hne (hx ▸ hM)
              refine hasM2_cons_of_none ?_ hq
              rw [findClose_none_sub2 hfct]
              rfl
        · -- a full two-apostrophe match: replacement plus scan of the rest
          rw [subApos_close hr hfc]
          have hpf : pairFree cap = true := findClose_cap_pairFree hfc
          have hrest_len : cap.length + 2 + rest.length = t.length :=
            findClose_length hfc
          have hM : hasM2 (subApos 1 ['*'] rest) = false := by
            refine ih rest ?_
            simp only [List.length_cons] at hu
            omega
          have hshape : ['*'] ++ cap ++ ['*'] ++ subApos 1 ['*'] rest =
              ('*' :: cap) ++ '*' :: subApos 1 ['*'] rest := by
            simp
          rw [hshape, hasM2_append_star ('*' :: cap) _
            (pairFree_cons_of_ne (by decide) hpf)]
          exact hM
      · -- no pair at the head: the scan advances one character
        have hr : aposRun 2 (a :: b :: t) = false := by
          by_cases ha : a = apos
          · exact aposRun_two_false_snd t (fun hb => hab ⟨ha, hb⟩)
          · exact aposRun_two_false_fst _ ha
        rw [subApos_no_open hr]
        have hM : hasM2 (subApos 1 ['*'] (b :: t)) = false := by
          refine ih (b :: t) ?_
          simp only [List.length_cons] at hu ⊢
          omega
        by_cases ha : a = apos
        · have hb : b ≠ apos := fun hb => hab ⟨ha, hb⟩
          obtain ⟨x, xs, hx, hne⟩ := sub2_head_ne b t hb
          rw [hx]
          exact hasM2_cons_of_head_ne hne (hx ▸ hM)
        · exact hasM2_cons_of_fst_ne ha hM

theorem aposRun_take {k : Nat} : ∀ {u : List Char}, aposRun k u = true →
    u.take k = List.replicate k apos := by
  induction k with
  | zero => intro u _; rfl
  | succ k ih =>
    intro u h
    cases u with
    | nil => simp [aposRun] at h
    | cons c cs =>
      simp only [aposRun, Bool.and_eq_true, decide_eq_true_eq] at h
      rw [List.take_succ_cons, List.replicate_succ, h.1, ih h.2]

/-- With no two-apostrophe match anywhere, none of the emphasis passes
(marker length at least two) changes the text. -/
theorem subApos_fix {k : Nat} (hk : 1 ≤ k) (stars : List Char) :
    ∀ {t : List Char}, hasM2 t = false → subApos k stars t = t := by
  intro t
  induction t with
  | nil => intro _; rfl
  | cons c cs ih =>
    intro h
    by_cases hr : aposRun (k + 1) (c :: cs) = true
    · rcases hfc : findClose k ((c :: cs).drop (k + 1)) with _ | ⟨cap, rest⟩
      · rw [subApos_no_close hr hfc, ih (hasM2_tail h)]
      · exfalso
        have hr2 : aposRun 2 (c :: cs) = true := aposRun_mono (by omega) hr
        obtain ⟨r, hshape⟩ : ∃ r, cs = apos :: r := by
          cases cs with
          | nil =>
            rw [aposRun, aposRun] at hr2
            simp at hr2
          | cons b r =>
            rw [aposRun, aposRun, Bool.and_eq_true, Bool.and_eq_true] at hr2
            exact ⟨r, by rw [show b = apos by simpa using hr2.2.1]⟩
        have hc : c = apos := by
          rw [aposRun, Bool.and_eq_true] at hr2
          simpa using hr2.1
        -- r is the text after the opening pair: k-1 apostrophes, then the
        -- region scanned by findClose
        have hdecomp : r = List.replicate (k - 1) apos ++ (c :: cs).drop (k + 1) := by
          have h1 : (c :: cs).take (k + 1) ++ (c :: cs).drop (k + 1) = c :: cs :=
            List.take_append_drop _ _
          have h2 : (c :: cs).take (k + 1) = List.replicate (k + 1) apos :=
            aposRun_take hr
          have h3 : c :: cs = List.replicate (k + 1) apos ++ (c :: cs).drop (k + 1) := by
            rw [← h2, h1]
          have h4 : (c :: cs).drop 2 =
              (List.replicate (k + 1) apos).drop 2 ++ (c :: cs).drop (k + 1) := by
            conv_lhs => rw [h3]
            rw [List.drop_append_of_le_length (by simp; omega)]
          rw [List.drop_replicate] at h4
          have h5 : (c :: cs).drop 2 = r := by
            rw [hshape]
            rfl
          have h6 : k + 1 - 2 = k - 1 := by omega
          rw [← h5, h4, h6]
        have hsome1 : (findClose 1 ((c :: cs).drop (k + 1))).isSome = true :=
          findClose_isSome_of_le hk (by rw [hfc]; rfl)
        have hsomer : (findClose 1 r).isSome = true := by
          rw [hdecomp]
          refine findClose_isSome_append ?_ hsome1
          intro x hx
          rw [List.eq_of_mem_replicate hx]
          decide
        rw [hshape, hc] at h
        rw [hasM2] at h
        simp [hsomer] at h
    · rw [subApos_no_open (by simpa using hr), ih (hasM2_tail h)]

theorem convert_formatting_list_idem (u : List Char) :
    convert_formatting_list (convert_formatting_list u) =
      convert_formatting_list u := by
  have hM : hasM2 (convert_formatting_list u) = false := by
    rw [convert_formatting_list]
    exact hasM2_sub2 _ _ le_rfl
  rw [show convert_formatting_list (convert_formatting_list u) =
      subApos 1 ['*'] (subApos 2 ['*', '*']
        (subApos 4 ['*', '*', '*'] (convert_formatting_list u))) from rfl]
  rw [subApos_fix (by omega) _ hM, subApos_fix (by omega) _ hM,
    subApos_fix (by omega) _ hM]

/-- C5: the inline-formatting conversion is idempotent — for every string
`s`, `convert_formatting (convert_formatting s) = convert_formatting s`;
the second pass finds no residual apostrophe emphasis markers to rewrite. -/
theorem claim_C5_formatting_idempotent (s : String) :
    convert_formatting (convert_formatting s) = convert_formatting s := by
  show (convert_formatting_list
    ((convert_formatting_list s.toList).asString).toList).asString = _
  have h : ((convert_formatting_list s.toList).asString).toList =
      convert_formatting_list s.toList := rfl
  rw [h, convert_formatting_list_idem]
  rfl

/-! ### convert_wikitable_to_markdown -/

/-- Case-insensitive prefix match against a lowercase pattern (Python
`re.IGNORECASE` on the source's ASCII keywords). -/
def startsWithCI : List Char → List Char → Bool
  | [], _ => true
  | _ :: _, [] => false
  | p :: ps, c :: cs => p = c.toLower && startsWithCI ps cs

/-- The HTML/CSS attribute keywords of the source's attribute patterns. -/
def attrKeywords : List (List Char) :=
  [['c','o','l','s','p','a','n'], ['r','o','w','s','p','a','n'],
   ['s','t','y','l','e'], ['c','l','a','s','s'], ['a','l','i','g','n'],
   ['v','a','l','i','g','n'], ['b','g','c','o','l','o','r'],
   ['w','i','d','t','h'], ['h','e','i','g','h','t']]

/-- Match one attribute keyword (alternation, first hit); the keywords are
pairwise prefix-incompatible, so at most one alternative can match. -/
def matchKw : List (List Char) → List Char → Option (List Char)
  | [], _ => none
  | kw :: kws, u => if startsWithCI kw u then some (u.drop kw.length) else matchKw kws u

/-- After the keyword: `\s*=\s*q[^q]*q` for the quote character `q`; returns
the text after the closing quote. -/
def tryAttrTail (q : Char) (u : List Char) : Option (List Char) :=
  match u.dropWhile pyWs with
  | [] => none
  | e :: u2 =>
    if e = '=' then
      match u2.dropWhile pyWs with
      | [] => none
      | c :: u4 =>
        if c = q then
          match u4.drop (u4.takeWhile (fun d => d ≠ q)).length with
          | [] => none
          | d :: u6 => if d = q then some u6 else none
        else none
    else none

/-- Matcher of `\s*(?:kw…)\s*=\s*"[^"]*"\s*\|` → `" | "` (the first attribute
substitution inside the table converter). -/
def tryAttrPipe : Matcher := fun u =>
  match matchKw attrKeywords (u.dropWhile pyWs) with
  | none => none
  | some u2 =>
    match tryAttrTail '"' u2 with
    | none => none
    | some u3 =>
      match u3.dropWhile pyWs with
      | [] => none
      | c :: u5 => if c = '|' then some ([' ', '|', ' '], u5) else none

/-- Matcher of `\s*(?:kw…)\s*=\s*q[^q]*q` → `""`. -/
def tryAttrPlain (q : Char) : Matcher := fun u =>
  match matchKw attrKeywords (u.dropWhile pyWs) with
  | none => none
  | some u2 =>
    match tryAttrTail q u2 with
    | none => none
    | some u3 => some ([], u3)

theorem matchKw_length : ∀ {kws : List (List Char)} {u r : List Char},
    matchKw kws u = some r → r.length ≤ u.length := by
  intro kws
  induction kws with
  | nil => intro u r h; simp [matchKw] at h
  | cons kw kws ih =>
    intro u r h
    rw [matchKw] at h
    by_cases hs : startsWithCI kw u = true
    · rw [if_pos hs] at h
      rw [← Option.some.inj h]
      simp
    · rw [if_neg (by simpa using hs)] at h
      exact ih h

theorem dropWhile_len_le (p : Char → Bool) (l : List Char) :
    (l.dropWhile p).length ≤ l.length :=
  (List.dropWhile_sublist p).length_le

theorem tryAttrTail_length {q : Char} {u r : List Char}
    (h : tryAttrTail q u = some r) : r.length < u.length := by
  rw [tryAttrTail] at h
  rcases hw : u.dropWhile pyWs with _ | ⟨e, u2⟩ <;> rw [hw] at h
  · simp at h
  · dsimp only at h
    have hw1 : u2.length < u.length := by
      have h1 : (u.dropWhile pyWs).length ≤ u.length := dropWhile_len_le _ _
      rw [hw] at h1
      simp only [List.length_cons] at h1
      omega
    by_cases he : e = '='
    · rw [if_pos he] at h
      rcases hw2 : u2.dropWhile pyWs with _ | ⟨c, u4⟩ <;> rw [hw2] at h
      · simp at h
      · dsimp only at h
        have hw3 : u4.length ≤ u2.length := by
          have h1 : (u2.dropWhile pyWs).length ≤ u2.length :=
            dropWhile_len_le _ _
          rw [hw2] at h1
          simp only [List.length_cons] at h1
          omega
        by_cases hc : c = q
        · rw [if_pos hc] at h
          rcases hw4 : u4.drop (u4.takeWhile (fun d => d ≠ q)).length
            with _ | ⟨d, u6⟩ <;> rw [hw4] at h
          · simp at h
          · dsimp only at h
            by_cases hd : d = q
            · rw [if_pos hd] at h
              have hw5 : u6.length < u4.length := by
                have h1 : (u4.drop (u4.takeWhile (fun d => d ≠ q)).length).length ≤
                    u4.length := by
                  rw [List.length_drop]
                  omega
                rw [hw4] at h1
                simp only [List.length_cons] at h1
                omega
              rw [← Option.some.inj h]
              omega
            · rw [if_neg hd] at h
              simp at h
        · rw [if_neg hc] at h
          simp at h
    · rw [if_neg he] at h
      simp at h

theorem tryAttrPipe_shrinks : Shrinks tryAttrPipe := by
  intro c cs repl rest h
  rw [tryAttrPipe] at h
  rcases hkw : matchKw attrKeywords ((c :: cs).dropWhile pyWs) with _ | u2 <;>
    rw [hkw] at h <;> (try dsimp only at h)
  · simp at h
  · have h2 : u2.length ≤ (c :: cs).length :=
      le_trans (matchKw_length hkw) (dropWhile_len_le _ _)
    rcases htl : tryAttrTail '"' u2 with _ | u3 <;> rw [htl] at h <;>
      (try dsimp only at h)
    · simp at h
    · have h3 : u3.length < u2.length := tryAttrTail_length htl
      rcases hdw : u3.dropWhile pyWs with _ | ⟨c5, u5⟩ <;> rw [hdw] at h <;>
        (try dsimp only at h)
      · simp at h
      · have h5 : u5.length < u3.length := by
          have h1 := dropWhile_len_le pyWs u3
          rw [hdw] at h1
          simp only [List.length_cons] at h1
          omega
        by_cases hc5 : c5 = '|'
        · rw [if_pos hc5] at h
          obtain ⟨_, h7⟩ := Prod.mk.injEq .. ▸ Option.some.inj h
          simp only [List.length_cons] at h2
          rw [← h7]
          omega
        · rw [if_neg hc5] at h
          simp at h

theorem tryAttrPlain_shrinks (q : Char) : Shrinks (tryAttrPlain q) := by
  intro c cs repl rest h
  rw [tryAttrPlain] at h
  rcases hkw : matchKw attrKeywords ((c :: cs).dropWhile pyWs) with _ | u2 <;>
    rw [hkw] at h <;> (try dsimp only at h)
  · simp at h
  · have h2 : u2.length ≤ (c :: cs).length :=
      le_trans (matchKw_length hkw) (dropWhile_len_le _ _)
    rcases htl : tryAttrTail q u2 with _ | u3 <;> rw [htl] at h <;>
      (try dsimp only at h)
    · simp at h
    · have h3 : u3.length < u2.length := tryAttrTail_length htl
      obtain ⟨_, h7⟩ := Prod.mk.injEq .. ▸ Option.some.inj h
      simp only [List.length_cons] at h2
      rw [← h7]
      omega

/-- Python `sep.join(parts)`. -/
def joinSep (sep : List Char) : List (List Char) → List Char
  | [] => []
  | [c] => c
  | c :: cs => c ++ sep ++ joinSep sep cs

/-- `re.split(r'\n\|-+\n?', …)`: the row-separator pattern, returning the
text after the separator (dashes greedily, one optional trailing newline). -/
def trySep : List Char → Option (List Char)
  | '\n' :: '|' :: '-' :: rest =>
    let after := rest.dropWhile (fun c => c = '-')
    some (match after with
          | '\n' :: tail => tail
          | other => other)
  | _ => none

/-- Splitter on a two-character delimiter pair with a fallthrough, as in
`re.split(r'\|\||\n\|', …)` and `re.split(r'!!|\n!', …)`: the first
alternative is tried first at each position. -/
def splitTwoF (d1 d2 : List Char) : Nat → List Char → List Char → List (List Char)
  | _, acc, [] => [acc.reverse]
  | 0, acc, u => [acc.reverse ++ u]
  | f + 1, acc, c :: cs =>
    if startsWithL d1 (c :: cs) then
      acc.reverse :: splitTwoF d1 d2 f [] ((c :: cs).drop d1.length)
    else if startsWithL d2 (c :: cs) then
      acc.reverse :: splitTwoF d1 d2 f [] ((c :: cs).drop d2.length)
    else splitTwoF d1 d2 f (c :: acc) cs

def splitTwo (d1 d2 : List Char) (u : List Char) : List (List Char) :=
  splitTwoF d1 d2 u.length [] u

/-- `re.split` on the table row-separator pattern. -/
def splitRowsF : Nat → List Char → List Char → List (List Char)
  | _, acc, [] => [acc.reverse]
  | 0, acc, u => [acc.reverse ++ u]
  | f + 1, acc, c :: cs =>
    match trySep (c :: cs) with
    | some rest => acc.reverse :: splitRowsF f [] rest
    | none => splitRowsF f (c :: acc) cs

def splitRows (u : List Char) : List (List Char) :=
  splitRowsF u.length [] u

/-- Python `cell.split('|')[-1]`: the text after the last pipe. -/
def afterLastPipe (u : List Char) : List Char :=
  (u.reverse.takeWhile (fun c => c ≠ '|')).reverse

/-- Cell cleaning of the table converter: strip the cell marker from the
left, strip whitespace, and when a pipe remains keep only the text after the
last pipe (the attribute-prefix convention), stripped again. -/
def cleanCellPre (sc : Char) (cell : List Char) : List Char :=
  let c1 := pyStrip (cell.dropWhile (fun c => c = sc))
  if c1.contains '|' then pyStrip (afterLastPipe c1) else c1

/-- The cell loop: clean each cell, drop it when empty, convert inline
formatting otherwise. -/
def cleanedCells (sc : Char) : List (List Char) → List (List Char)
  | [] => []
  | cell :: rest =>
    let c := cleanCellPre sc cell
    if c = [] then cleanedCells sc rest
    else convert_formatting_list c :: cleanedCells sc rest

/-- State of the table converter's row-group loop. -/
structure TableAcc where
  caption : Option (List Char)
  headers : List (List Char)
  rows : List (List (List Char))

/-- One iteration of the row-group loop of `convert_wikitable_to_markdown`. -/
def procGroup (st : TableAcc) (g0 : List Char) : TableAcc :=
  let g := pyStrip g0
  if g = [] || startsWithL ['{', '|'] g || startsWithL ['|', '}'] g then st
  else if startsWithL ['!'] g then
    let cleaned := cleanedCells '!' (splitTwo ['!', '!'] ['\n', '!'] g)
    if st.headers.isEmpty && !cleaned.isEmpty then { st with headers := cleaned }
    else st
  else if startsWithL ['|'] g then
    match cleanedCells '|' (splitTwo ['|', '|'] ['\n', '|'] g) with
    | [] => st
    | [x] =>
      if st.headers.isEmpty && st.rows.isEmpty then { st with caption := some x }
      else { st with rows := st.rows ++ [[x]] }
    | cleaned => { st with rows := st.rows ++ [cleaned] }
  else st

/-- Caption pre-extraction: a second line starting with `|+` is popped and
becomes the caption (`lstrip('|+')`, then `strip()`). -/
def tableCaptionSplit (tl : List (List Char)) :
    Option (List Char) × List (List Char) :=
  match tl with
  | a :: b :: rest =>
    if startsWithL ['|', '+'] b then
      (some (pyStrip (pyLstrip ['|', '+'] b)), a :: rest)
    else (none, tl)
  | _ => (none, tl)

/-- The parsed table state: caption handling, the two attribute
substitutions over the joined text, the row-separator split, and the
row-group loop. -/
def parseTable (tl : List (List Char)) : TableAcc :=
  let (cap0, tl') := tableCaptionSplit tl
  let fullText := joinSep ['\n'] tl'
  let t1 := scan tryAttrPipe fullText
  let t2 := scan (tryAttrPlain '"') t1
  (splitRows t2).foldl procGroup ⟨cap0, [], []⟩

/-- Header promotion: with no explicit header but data rows present, the
first data row becomes the header. -/
def promoteHeader (st : TableAcc) : List (List Char) × List (List (List Char)) :=
  if st.headers.isEmpty then
    match st.rows with
    | r :: rs => (r, rs)
    | [] => ([], [])
  else (st.headers, st.rows)

def maxNat : List Nat → Nat
  | [] => 0
  | n :: ns => max n (maxNat ns)

/-- `max_cols`: maximum of the header length and all row lengths. -/
def tableMaxCols (headers : List (List Char)) (rows : List (List (List Char))) : Nat :=
  max headers.length (maxNat (rows.map List.length))

/-- Right-pad the header to `max_cols` with empty cells. -/
def padHeaders (headers : List (List Char)) (maxCols : Nat) : List (List Char) :=
  if headers.length < maxCols then
    headers ++ List.replicate (maxCols - headers.length) []
  else headers

/-- Pad a short row with empty cells, truncate a long one. -/
def padRow (n : Nat) (r : List (List Char)) : List (List Char) :=
  if r.length < n then r ++ List.replicate (n - r.length) []
  else if r.length > n then r.take n
  else r

/-- `"| " + " | ".join(cells) + " |"`. -/
def mkRow (cells : List (List Char)) : List Char :=
  ['|', ' '] ++ joinSep [' ', '|', ' '] cells ++ [' ', '|']

/-- The emitted table rows: header row, separator row, then the padded data
rows. -/
def tableEmittedRows (headersP : List (List Char))
    (rows : List (List (List Char))) : List (List Char) :=
  mkRow headersP :: mkRow (headersP.map (fun _ => ['-', '-', '-'])) ::
    rows.map (fun r => mkRow (padRow headersP.length r))

/-- The table's header cells after promotion. -/
def tableHeadersOf (tl : List (List Char)) : List (List Char) :=
  (promoteHeader (parseTable tl)).1

/-- The table's data rows after promotion. -/
def tableRowsOf (tl : List (List Char)) : List (List (List Char)) :=
  (promoteHeader (parseTable tl)).2

/-- The table's `max_cols`. -/
def tableColsOf (tl : List (List Char)) : Nat :=
  tableMaxCols (tableHeadersOf tl) (tableRowsOf tl)

/-- The emitted rows of the table: header, separator, padded data rows. -/
def tableLinesOf (tl : List (List Char)) : List (List Char) :=
  tableEmittedRows (padHeaders (tableHeadersOf tl) (tableColsOf tl)) (tableRowsOf tl)

/-- `convert_wikitable_to_markdown` over character lists. -/
def convert_wikitable_lists (tl : List (List Char)) : List Char :=
  if (tableHeadersOf tl).isEmpty then []
  else
    let capPart : List (List Char) :=
      match (parseTable tl).caption with
      | some c => if c.isEmpty then [] else [['*', '*'] ++ c ++ ['*', '*', '\n']]
      | none => []
    joinSep ['\n'] (capPart ++ tableLinesOf tl ++ [[]])

/-- `convert_wikitable_to_markdown(table_lines)`. -/
def convert_wikitable_to_markdown (tableLines : List String) : String :=
  (convert_wikitable_lists (tableLines.map String.toList)).asString

/-- The table block of spec Example 5. -/
def exampleTableC1 : List String := ["\x7b|", "|+Cap", "!A!!B", "|-", "|1|||2", "|\x7d"]

/-- C1 counterexample: on the table block `{| / |+Cap / !A!!B / |- / |1|||2
/ |}` the converter does not produce the claimed header row `| A | B |` nor
the claimed data row `| 1 | 2 |`.  The first row group of the
`\n\|-+\n?` split is `{|\n!A!!B`; it starts with `{|` and is skipped whole,
so the header line is discarded, the single data row (with the table-close
brace leaking in as a third cell `}`) is promoted to header, and no data row
remains. -/
theorem claim_C1_counterexample :
    convert_wikitable_to_markdown exampleTableC1 =
      "**Cap**\n\n| 1 | 2 | \x7d |\n| --- | --- | --- |\n" ∧
    ((convert_wikitable_lists (exampleTableC1.map String.toList)).splitOn
      '\n').contains ("| A | B |".toList) = false ∧
    ((convert_wikitable_lists (exampleTableC1.map String.toList)).splitOn
      '\n').contains ("| 1 | 2 |".toList) = false ∧
    convert_wikitable_to_markdown exampleTableC1 ≠
      "**Cap**\n| A | B |\n| --- | --- |\n| 1 | 2 |" := by
  refine ⟨by decide, by decide, by decide, by decide⟩

/-- C1 amended: converting that table block yields the bold caption line
`**Cap**` followed by a blank line, the header row `| 1 | 2 | } |` (the data
cells plus the leaked close-brace cell, promoted to header because the row
group holding the true header line starts with `{|` and is skipped), the
separator `| --- | --- | --- |`, and no data row. -/
theorem claim_C1_amended :
    convert_wikitable_to_markdown exampleTableC1 =
      "**Cap**\n\n| 1 | 2 | \x7d |\n| --- | --- | --- |\n" := by
  decide

/-- C9: a cell that cleans to the empty string is dropped from its row
(later cells shift left) rather than kept: the cell loop equals a
map-then-filter-then-format pipeline; and concretely, in `|a||||b` the empty
middle cell disappears, `b` becomes the second cell of a two-cell row, and
the only empty cells of the output are the right-padding of short rows. -/
theorem claim_C9_empty_cells_dropped :
    (∀ (sc : Char) (cells : List (List Char)),
      cleanedCells sc cells =
        ((cells.map (cleanCellPre sc)).filter
          (fun c => !c.isEmpty)).map convert_formatting_list) ∧
    convert_wikitable_to_markdown ["\x7b|", "|-", "|a||||b", "|-", "|c||d||e", "|\x7d"] =
      "| a | b |  |  |\n| --- | --- | --- | --- |\n| c | d | e | \x7d |\n" := by
  constructor
  · intro sc cells
    induction cells with
    | nil => rfl
    | cons cell rest ih =>
      simp only [cleanedCells, List.map_cons, List.filter_cons]
      by_cases hc : cleanCellPre sc cell = []
      · rw [if_pos hc, hc]
        simpa using ih
      · rw [if_neg hc]
        have : (!(cleanCellPre sc cell).isEmpty) = true := by
          simpa [List.isEmpty_iff] using hc
        rw [this]
        simp only [if_true, List.map_cons, ih]
  · decide

/-! ### C6: table rectangularity -/

theorem mem_pyStrip {x : Char} {u : List Char} (h : x ∈ pyStrip u) : x ∈ u := by
  rw [pyStrip, List.mem_reverse] at h
  have h2 := (List.dropWhile_sublist pyWs).subset h
  rw [List.mem_reverse] at h2
  exact (List.dropWhile_sublist pyWs).subset h2

theorem mem_takeWhile_pred {p : Char → Bool} : ∀ {l : List Char} {x : Char},
    x ∈ l.takeWhile p → p x = true := by
  intro l
  induction l with
  | nil =>
    intro x h
    simp [List.takeWhile] at h
  | cons c cs ih =>
    intro x h
    rw [List.takeWhile_cons] at h
    by_cases hc : p c = true
    · rw [if_pos hc] at h
      rcases List.mem_cons.mp h with rfl | h2
      · exact hc
      · exact ih h2
    · rw [if_neg (by simpa using hc)] at h
      exact absurd h (List.not_mem_nil x)

theorem afterLastPipe_no_pipe (u : List Char) : '|' ∉ afterLastPipe u := by
  intro h
  rw [afterLastPipe, List.mem_reverse] at h
  have := mem_takeWhile_pred h
  simp at this

theorem cleanCellPre_no_pipe (sc : Char) (cell : List Char) :
    '|' ∉ cleanCellPre sc cell := by
  rw [cleanCellPre]
  by_cases hc : (pyStrip (cell.dropWhile (fun c => c = sc))).contains '|' = true
  · rw [if_pos hc]
    intro h
    exact afterLastPipe_no_pipe _ (mem_pyStrip h)
  · rw [if_neg hc]
    intro h
    exact hc (List.elem_eq_true_of_mem h)

theorem findClose_mem {k : Nat} : ∀ {u cap rest : List Char},
    findClose k u = some (cap, rest) →
      (∀ x ∈ cap, x ∈ u) ∧ ∀ x ∈ rest, x ∈ u := by
  intro u
  induction u with
  | nil =>
    intro cap rest h
    simp [findClose] at h
  | cons c cs ih =>
    intro cap rest h
    rw [findClose] at h
    by_cases hr : aposRun (k + 1) (c :: cs) = true
    · rw [if_pos hr] at h
      obtain ⟨hc, hrest⟩ := Prod.mk.injEq .. ▸ Option.some.inj h
      subst hc
      subst hrest
      exact ⟨fun x hx => absurd hx (List.not_mem_nil x),
        fun x hx => (List.drop_sublist _ _).subset hx⟩
    · rw [if_neg hr] at h
      by_cases hn : c = '\n'
      · rw [if_pos hn] at h
        exact absurd h (by simp)
      · rw [if_neg hn, Option.map_eq_some'] at h
        obtain ⟨⟨cap', rest'⟩, hfc, heq⟩ := h
        simp only [Prod.mk.injEq] at heq
        obtain ⟨hc, hrest⟩ := heq
        subst hc
        subst hrest
        obtain ⟨ihc, ihr⟩ := ih hfc
        constructor
        · intro x hx
          rcases List.mem_cons.mp hx with rfl | h2
          · exact List.mem_cons_self _ _
          · exact List.mem_cons_of_mem _ (ihc x h2)
        · exact fun x hx => List.mem_cons_of_mem _ (ihr x hx)

theorem tryApos_elim {k : Nat} {stars u repl rest : List Char}
    (h : tryApos k stars u = some (repl, rest)) :
    ∃ cap, findClose k (u.drop (k + 1)) = some (cap, rest) ∧
      repl = stars ++ cap ++ stars := by
  rw [tryApos] at h
  by_cases hr : aposRun (k + 1) u = true
  · rw [if_pos hr, Option.map_eq_some'] at h
    obtain ⟨⟨cap, rest'⟩, hfc, heq⟩ := h
    simp only [Prod.mk.injEq] at heq
    exact ⟨cap, heq.2 ▸ hfc, heq.1.symm⟩
  · rw [if_neg hr] at h
    exact absurd h (by simp)

theorem scanF_subApos_mem (k : Nat) (stars : List Char) :
    ∀ (f : Nat) (u : List Char) (x : Char),
      x ∈ scanF (tryApos k stars) f u → x ∈ u ∨ x ∈ stars := by
  intro f
  induction f with
  | zero =>
    intro u x h
    cases u with
    | nil => exact absurd h (List.not_mem_nil x)
    | cons c cs => exact Or.inl h
  | succ f ih =>
    intro u x h
    cases u with
    | nil => exact absurd h (List.not_mem_nil x)
    | cons c cs =>
      rw [scanF] at h
      rcases htm : tryApos k stars (c :: cs) with _ | ⟨repl, rest⟩ <;>
        rw [htm] at h <;> (try dsimp only at h)
      · rcases List.mem_cons.mp h with rfl | h2
        · exact Or.inl (List.mem_cons_self _ _)
        · rcases ih cs x h2 with h3 | h3
          · exact Or.inl (List.mem_cons_of_mem _ h3)
          · exact Or.inr h3
      · obtain ⟨cap, hfc, hrepl⟩ := tryApos_elim htm
        obtain ⟨hcapm, hrestm⟩ := findClose_mem hfc
        have hdropm : ∀ y, y ∈ (c :: cs).drop (k + 1) → y ∈ c :: cs :=
          fun y hy => (List.drop_sublist _ _).subset hy
        rcases List.mem_append.mp h with h2 | h2
        · rw [hrepl] at h2
          rcases List.mem_append.mp h2 with h3 | h3
          · rcases List.mem_append.mp h3 with h4 | h4
            · exact Or.inr h4
            · exact Or.inl (hdropm x (hcapm x h4))
          · exact Or.inr h3
        · rcases ih rest x h2 with h3 | h3
          · exact Or.inl (hdropm x (hrestm x h3))
          · exact Or.inr h3

theorem subApos_mem {k : Nat} {stars u : List Char} {x : Char}
    (h : x ∈ subApos k stars u) : x ∈ u ∨ x ∈ stars :=
  scanF_subApos_mem k stars u.length u x h

theorem convert_formatting_list_mem {u : List Char} {x : Char}
    (h : x ∈ convert_formatting_list u) : x ∈ u ∨ x = '*' := by
  rw [convert_formatting_list] at h
  rcases subApos_mem h with h1 | h1
  · rcases subApos_mem h1 with h2 | h2
    · rcases subApos_mem h2 with h3 | h3
      · exact Or.inl h3
      · exact Or.inr (by simpa using h3)
    · exact Or.inr (by simpa using h2)
  · exact Or.inr (by simpa using h1)

theorem cleanedCells_no_pipe (sc : Char) :
    ∀ (cells : List (List Char)), ∀ cell ∈ cleanedCells sc cells, '|' ∉ cell := by
  intro cells
  induction cells with
  | nil =>
    intro cell h
    exact absurd h (List.not_mem_nil cell)
  | cons c0 rest ih =>
    intro cell h
    rw [cleanedCells] at h
    by_cases hc : cleanCellPre sc c0 = []
    · rw [if_pos hc] at h
      exact ih cell h
    · rw [if_neg hc] at h
      rcases List.mem_cons.mp h with rfl | h2
      · intro hp
        rcases convert_formatting_list_mem hp with h3 | h3
        · exact cleanCellPre_no_pipe sc c0 h3
        · exact absurd h3 (by decide)
      · exact ih cell h2

/-- The cleanliness invariant of the row-group loop: no cell of the
accumulated headers or rows contains a pipe. -/
def CellsClean (st : TableAcc) : Prop :=
  (∀ cell ∈ st.headers, '|' ∉ cell) ∧
    ∀ row ∈ st.rows, ∀ cell ∈ row, '|' ∉ cell

theorem procGroup_clean {st : TableAcc} (g : List Char) (h : CellsClean st) :
    CellsClean (procGroup st g) := by
  obtain ⟨hh, hr⟩ := h
  rw [procGroup]
  by_cases h1 : (pyStrip g = [] || startsWithL ['{', '|'] (pyStrip g) ||
      startsWithL ['|', '}'] (pyStrip g)) = true
  · rw [if_pos h1]
    exact ⟨hh, hr⟩
  · rw [if_neg h1]
    by_cases h2 : startsWithL ['!'] (pyStrip g) = true
    · rw [if_pos h2]
      by_cases h3 : (st.headers.isEmpty &&
          !(cleanedCells '!' (splitTwo ['!', '!'] ['\n', '!'] (pyStrip g))).isEmpty) = true
      · rw [if_pos h3]
        exact ⟨fun cell hc => cleanedCells_no_pipe '!' _ cell hc, hr⟩
      · rw [if_neg h3]
        exact ⟨hh, hr⟩
    · rw [if_neg h2]
      by_cases h4 : startsWithL ['|'] (pyStrip g) = true
      · rw [if_pos h4]
        rcases hcl : cleanedCells '|' (splitTwo ['|', '|'] ['\n', '|'] (pyStrip g))
          with _ | ⟨x, xs⟩
        · exact ⟨hh, hr⟩
        · have hxm : ∀ cell ∈ x :: xs, '|' ∉ cell := by
            rw [← hcl]
            exact cleanedCells_no_pipe '|' _
          cases xs with
          | nil =>
            dsimp only
            by_cases h5 : (st.headers.isEmpty && st.rows.isEmpty) = true
            · rw [if_pos h5]
              exact ⟨hh, hr⟩
            · rw [if_neg h5]
              refine ⟨hh, fun row hrow => ?_⟩
              rcases List.mem_append.mp hrow with h6 | h6
              · exact hr row h6
              · intro cell hcell
                rcases List.mem_singleton.mp h6 with rfl
                rcases List.mem_singleton.mp hcell with rfl
                exact hxm _ (List.mem_cons_self _ _)
          | cons y ys =>
            dsimp only
            refine ⟨hh, fun row hrow => ?_⟩
            rcases List.mem_append.mp hrow with h6 | h6
            · exact hr row h6
            · rcases List.mem_singleton.mp h6 with rfl
              exact hxm
      · rw [if_neg h4]
        exact ⟨hh, hr⟩

theorem foldl_procGroup_clean :
    ∀ (gs : List (List Char)) (st : TableAcc), CellsClean st →
      CellsClean (gs.foldl procGroup st) := by
  intro gs
  induction gs with
  | nil => exact fun st h => h
  | cons g gs ih =>
    intro st h
    exact ih _ (procGroup_clean g h)

theorem parseTable_clean (tl : List (List Char)) : CellsClean (parseTable tl) := by
  rw [parseTable]
  exact foldl_procGroup_clean _ _
    ⟨fun cell hc => absurd hc (List.not_mem_nil cell),
     fun row hrow => absurd hrow (List.not_mem_nil row)⟩

theorem promoteHeader_clean {st : TableAcc} (h : CellsClean st) :
    (∀ cell ∈ (promoteHeader st).1, '|' ∉ cell) ∧
      ∀ row ∈ (promoteHeader st).2, ∀ cell ∈ row, '|' ∉ cell := by
  obtain ⟨hh, hr⟩ := h
  rw [promoteHeader]
  by_cases h1 : st.headers.isEmpty = true
  · rw [if_pos h1]
    rcases hrows : st.rows with _ | ⟨r, rs⟩
    · exact ⟨fun cell hc => absurd hc (List.not_mem_nil cell),
        fun row hrow => absurd hrow (List.not_mem_nil row)⟩
    · refine ⟨fun cell hc => hr r (by rw [hrows]; exact List.mem_cons_self _ _) cell hc,
        fun row hrow => hr row (by rw [hrows]; exact List.mem_cons_of_mem _ hrow)⟩
  · rw [if_neg h1]
    exact ⟨hh, hr⟩

theorem joinSep_count_pipe :
    ∀ (cells : List (List Char)), cells ≠ [] → (∀ c ∈ cells, '|' ∉ c) →
      (joinSep [' ', '|', ' '] cells).count '|' = cells.length - 1 := by
  intro cells
  induction cells with
  | nil => intro h _; exact absurd rfl h
  | cons c rest ih =>
    intro _ hfree
    cases rest with
    | nil =>
      show (joinSep [' ', '|', ' '] [c]).count '|' = 0
      rw [show joinSep [' ', '|', ' '] [c] = c from rfl]
      exact List.count_eq_zero.mpr (hfree c (List.mem_cons_self _ _))
    | cons d rest' =>
      rw [show joinSep [' ', '|', ' '] (c :: d :: rest') =
        c ++ [' ', '|', ' '] ++ joinSep [' ', '|', ' '] (d :: rest') from rfl]
      rw [List.count_append, List.count_append]
      rw [List.count_eq_zero.mpr (hfree c (List.mem_cons_self _ _))]
      rw [ih (by simp) (fun x hx => hfree x (List.mem_cons_of_mem _ hx))]
      simp only [List.length_cons]
      have : ([' ', '|', ' '].count '|') = 1 := by decide
      rw [this]
      omega

theorem mkRow_count {cells : List (List Char)} (hne : cells ≠ [])
    (hfree : ∀ c ∈ cells, '|' ∉ c) :
    (mkRow cells).count '|' = cells.length + 1 := by
  rw [mkRow, List.count_append, List.count_append]
  rw [joinSep_count_pipe cells hne hfree]
  have h1 : (['|', ' '].count '|') = 1 := by decide
  have h2 : ([' ', '|'].count '|') = 1 := by decide
  rw [h1, h2]
  cases cells with
  | nil => exact absurd rfl hne
  | cons c rest =>
    simp only [List.length_cons]
    omega

theorem padHeaders_length {headers : List (List Char)} {maxCols : Nat}
    (h : headers.length ≤ maxCols) :
    (padHeaders headers maxCols).length = maxCols := by
  rw [padHeaders]
  by_cases h1 : headers.length < maxCols
  · rw [if_pos h1]
    simp only [List.length_append, List.length_replicate]
    omega
  · rw [if_neg h1]
    omega

theorem padRow_length (n : Nat) (r : List (List Char)) :
    (padRow n r).length = n := by
  rw [padRow]
  by_cases h1 : r.length < n
  · rw [if_pos h1]
    simp only [List.length_append, List.length_replicate]
    omega
  · rw [if_neg h1]
    by_cases h2 : r.length > n
    · rw [if_pos h2]
      simp only [List.length_take]
      omega
    · rw [if_neg h2]
      omega

theorem padHeaders_no_pipe {headers : List (List Char)} {maxCols : Nat}
    (h : ∀ c ∈ headers, '|' ∉ c) :
    ∀ c ∈ padHeaders headers maxCols, '|' ∉ c := by
  intro c hc
  rw [padHeaders] at hc
  by_cases h1 : headers.length < maxCols
  · rw [if_pos h1] at hc
    rcases List.mem_append.mp hc with h2 | h2
    · exact h c h2
    · rw [List.eq_of_mem_replicate h2]
      exact List.not_mem_nil '|'
  · rw [if_neg h1] at hc
    exact h c hc

theorem padRow_no_pipe {n : Nat} {r : List (List Char)}
    (h : ∀ c ∈ r, '|' ∉ c) :
    ∀ c ∈ padRow n r, '|' ∉ c := by
  intro c hc
  rw [padRow] at hc
  by_cases h1 : r.length < n
  · rw [if_pos h1] at hc
    rcases List.mem_append.mp hc with h2 | h2
    · exact h c h2
    · rw [List.eq_of_mem_replicate h2]
      exact List.not_mem_nil '|'
  · rw [if_neg h1] at hc
    by_cases h2 : r.length > n
    · rw [if_pos h2] at hc
      exact h c ((List.take_sublist _ _).subset hc)
    · rw [if_neg h2] at hc
      exact h c hc

/-- C6: on every table block for which the transducer produces non-empty
output, each emitted table row — header row, separator row, and every data
row — carries exactly `max_cols` pipe-delimited cells, that is,
`max_cols + 1` pipe characters (every cleaned cell is pipe-free, the header
is right-padded to `max_cols`, and each data row is padded or truncated to
the header's width). -/
theorem claim_C6_table_rectangularity (tl : List (List Char))
    (h : convert_wikitable_lists tl ≠ []) :
    ∀ line ∈ tableLinesOf tl, line.count '|' = tableColsOf tl + 1 := by
  have hne : (tableHeadersOf tl).isEmpty ≠ true := by
    intro he
    exact h (by rw [convert_wikitable_lists, if_pos he])
  have hne' : tableHeadersOf tl ≠ [] := by
    intro he
    exact hne (by rw [he]; rfl)
  obtain ⟨hh, hr⟩ := promoteHeader_clean (parseTable_clean tl)
  have hcols : (tableHeadersOf tl).length ≤ tableColsOf tl := by
    rw [tableColsOf, tableMaxCols]
    exact le_max_left _ _
  have hPlen : (padHeaders (tableHeadersOf tl) (tableColsOf tl)).length =
      tableColsOf tl := padHeaders_length hcols
  have hPne : padHeaders (tableHeadersOf tl) (tableColsOf tl) ≠ [] := by
    intro he
    have : (tableHeadersOf tl).length = 0 := by
      have h0 := hPlen
      rw [he] at h0
      simp only [List.length_nil] at h0
      omega
    exact hne' (List.length_eq_zero.mp this)
  have hPfree : ∀ c ∈ padHeaders (tableHeadersOf tl) (tableColsOf tl), '|' ∉ c :=
    padHeaders_no_pipe hh
  intro line hline
  rw [tableLinesOf, tableEmittedRows] at hline
  rcases List.mem_cons.mp hline with rfl | hline2
  · rw [mkRow_count hPne hPfree, hPlen]
  · rcases List.mem_cons.mp hline2 with rfl | hline3
    · have hlen : ((padHeaders (tableHeadersOf tl) (tableColsOf tl)).map
          (fun _ => ['-', '-', '-'])).length = tableColsOf tl := by
        rw [List.length_map, hPlen]
      have hne2 : (padHeaders (tableHeadersOf tl) (tableColsOf tl)).map
          (fun _ => ['-', '-', '-']) ≠ [] := by
        intro he
        rw [he] at hlen
        simp only [List.length_nil] at hlen
        have := hPlen
        rw [← hlen] at this
        exact hPne (List.length_eq_zero.mp (by omega))
      rw [mkRow_count hne2 ?_, hlen]
      intro c hc
      obtain ⟨_, _, hc2⟩ := List.mem_map.mp hc
      rw [← hc2]
      decide
    · obtain ⟨row, hrow, hline4⟩ := List.mem_map.mp hline3
      rw [← hline4]
      have hfree : ∀ c ∈ padRow
          (padHeaders (tableHeadersOf tl) (tableColsOf tl)).length row, '|' ∉ c :=
        padRow_no_pipe (hr row hrow)
      have hlen : (padRow
          (padHeaders (tableHeadersOf tl) (tableColsOf tl)).length row).length =
          tableColsOf tl := by
        rw [padRow_length, hPlen]
      have hne3 : padRow
          (padHeaders (tableHeadersOf tl) (tableColsOf tl)).length row ≠ [] := by
        intro he
        rw [he] at hlen
        simp only [List.length_nil] at hlen
        have h0 := hPlen
        rw [← hlen] at h0
        exact hPne (List.length_eq_zero.mp (by omega))
      rw [mkRow_count hne3 hfree, hlen]

/-- Witness for C6 at the Example-5 table block. -/
theorem claim_C6_witness :
    convert_wikitable_lists (exampleTableC1.map String.toList) ≠ [] ∧
      ∀ line ∈ tableLinesOf (exampleTableC1.map String.toList),
        line.count '|' = tableColsOf (exampleTableC1.map String.toList) + 1 :=
  ⟨by decide, claim_C6_table_rectangularity _ (by decide)⟩

/-! ### remove_templates -/

/-- `text[j:j+2] == '{{'`. -/
def isOpenTpl : List Char → Bool
  | c :: d :: _ => c = '{' && d = '{'
  | _ => false

/-- `text[j:j+2] == '}}'`. -/
def isCloseTpl : List Char → Bool
  | c :: d :: _ => c = '}' && d = '}'
  | _ => false

/-- The inner scan of `remove_templates`, from the template's opening
position: greedy two-character marker tokens with a nesting counter (the
Python counter is an int; the `== 0` test fires right after a decrement).
`some rest` is the text after the matching close marker; `none` is
end-of-input with the counter still nonzero. -/
def scanTplF : Nat → Int → List Char → Option (List Char)
  | _, _, [] => none
  | 0, _, _ :: _ => none
  | f + 1, cnt, c :: cs =>
    if isOpenTpl (c :: cs) then scanTplF f (cnt + 1) ((c :: cs).drop 2)
    else if isCloseTpl (c :: cs) then
      (if cnt - 1 = 0 then some ((c :: cs).drop 2)
       else scanTplF f (cnt - 1) ((c :: cs).drop 2))
    else scanTplF f cnt cs

/-- The inner scan with sufficient fuel. -/
def scanTpl (cnt : Int) (u : List Char) : Option (List Char) :=
  scanTplF u.length cnt u

/-- Drop through the first newline (`text.find('\n', …)`); `none` when no
newline remains. -/
def dropToNextLine : List Char → Option (List Char)
  | [] => none
  | c :: cs => if c = '\n' then some cs else dropToNextLine cs

/-- A recovery resume line: blank once stripped, a section heading, or a
bold title. -/
def goodResumeLine (v : List Char) : Bool :=
  let line := pyStrip (v.takeWhile (fun c => c ≠ '\n'))
  line.isEmpty || startsWithL ['=', '='] line || startsWithL [apos, apos, apos] line

/-- Malformed-template recovery: look at each line after the next newline
and resume at the first blank/heading/bold line, discarding everything
skipped; end of input when no such line exists. -/
def findResumeF : Nat → List Char → List Char
  | _, [] => []
  | 0, _ :: _ => []
  | f + 1, c :: cs =>
    match dropToNextLine (c :: cs) with
    | none => []
    | some v =>
      if v.isEmpty then []
      else if goodResumeLine v then v
      else findResumeF f v

def findResume (u : List Char) : List Char := findResumeF u.length u

/-- The outer loop of `remove_templates`: copy characters until a `{{`;
there, skip the balanced template (inner scan) or run recovery. -/
def removeTemplatesF : Nat → List Char → List Char
  | _, [] => []
  | 0, u => u
  | f + 1, c :: cs =>
    if isOpenTpl (c :: cs) then
      match scanTpl 0 (c :: cs) with
      | some rest => removeTemplatesF f rest
      | none => removeTemplatesF f (findResume ((c :: cs).drop 2))
    else c :: removeTemplatesF f cs

def removeTemplates (u : List Char) : List Char := removeTemplatesF u.length u

/-- `remove_templates(text)`. -/
def remove_templates (s : String) : String :=
  (removeTemplates s.toList).asString

theorem scanTplF_length : ∀ {f : Nat} {cnt : Int} {u r : List Char},
    scanTplF f cnt u = some r → r.length + 2 ≤ u.length := by
  intro f
  induction f with
  | zero =>
    intro cnt u r h
    cases u <;> simp [scanTplF] at h
  | succ f ih =>
    intro cnt u r h
    cases u with
    | nil => simp [scanTplF] at h
    | cons c cs =>
      rw [scanTplF] at h
      have hdl : (((c :: cs).drop 2).length) = (c :: cs).length - 2 :=
        List.length_drop 2 _
      by_cases h1 : isOpenTpl (c :: cs) = true
      · rw [if_pos h1] at h
        have h0 := ih h
        omega
      · rw [if_neg h1] at h
        by_cases h2 : isCloseTpl (c :: cs) = true
        · rw [if_pos h2] at h
          by_cases h3 : cnt - 1 = 0
          · rw [if_pos h3] at h
            have hr := Option.some.inj h
            have hlen : 2 ≤ (c :: cs).length := by
              cases cs with
              | nil => simp [isCloseTpl] at h2
              | cons d cs' => simp
            rw [← hr]
            omega
          · rw [if_neg h3] at h
            have h0 := ih h
            omega
        · rw [if_neg h2] at h
          have h0 := ih h
          simp only [List.length_cons] at h0 ⊢
          omega

theorem dropToNextLine_length : ∀ {u v : List Char},
    dropToNextLine u = some v → v.length < u.length := by
  intro u
  induction u with
  | nil => intro v h; simp [dropToNextLine] at h
  | cons c cs ih =>
    intro v h
    rw [dropToNextLine] at h
    by_cases hc : c = '\n'
    · rw [if_pos hc] at h
      rw [← Option.some.inj h]
      simp
    · rw [if_neg hc] at h
      have := ih h
      simp only [List.length_cons]
      omega

theorem findResumeF_length : ∀ (f : Nat) (u : List Char),
    (findResumeF f u).length ≤ u.length := by
  intro f
  induction f with
  | zero =>
    intro u
    cases u <;> simp [findResumeF]
  | succ f ih =>
    intro u
    cases u with
    | nil => simp [findResumeF]
    | cons c cs =>
      rw [findResumeF]
      rcases hd : dropToNextLine (c :: cs) with _ | v
      · simp
      · dsimp only
        have hv := dropToNextLine_length hd
        by_cases h1 : v.isEmpty = true
        · rw [if_pos h1]
          simp
        · rw [if_neg h1]
          by_cases h2 : goodResumeLine v = true
          · rw [if_pos h2]
            omega
          · rw [if_neg h2]
            have := ih v
            omega

/-- Dyck balance over the scanner's greedy two-character tokenisation:
reading left to right, `{{` opens and `}}` closes; the counter never goes
negative and ends at zero, so every open marker has a matching close
marker and no close marker is unmatched. -/
def balancedTplF : Nat → Int → List Char → Bool
  | _, n, [] => n == 0
  | 0, n, _ :: _ => n == 0
  | f + 1, n, c :: cs =>
    if isOpenTpl (c :: cs) then balancedTplF f (n + 1) ((c :: cs).drop 2)
    else if isCloseTpl (c :: cs) then
      decide (0 < n) && balancedTplF f (n - 1) ((c :: cs).drop 2)
    else balancedTplF f n cs

def balancedTpl (s : String) : Bool := balancedTplF s.toList.length 0 s.toList

/-- Two adjacent `{` characters occur somewhere. -/
def hasOpenPair : List Char → Bool
  | c :: d :: r => (c = '{' && d = '{') || hasOpenPair (d :: r)
  | _ => false

/-- Two adjacent `}` characters occur somewhere. -/
def hasClosePair : List Char → Bool
  | c :: d :: r => (c = '}' && d = '}') || hasClosePair (d :: r)
  | _ => false

theorem isOpenTpl_false_of_ne {d : Char} (cs : List Char) (hd : d ≠ '{') :
    isOpenTpl (d :: cs) = false := by
  cases cs with
  | nil => rfl
  | cons e r =>
    rw [isOpenTpl]
    simp [hd]

theorem hasOpenPair_cons {c : Char} {X : List Char}
    (hX : hasOpenPair X = false)
    (hhead : ∀ x xs, X = x :: xs → ¬(c = '{' ∧ x = '{')) :
    hasOpenPair (c :: X) = false := by
  cases X with
  | nil => rfl
  | cons x xs =>
    rw [hasOpenPair, hX, Bool.or_false]
    have := hhead x xs rfl
    simp only [Bool.and_eq_false_iff, decide_eq_false_iff_not]
    by_cases hc : c = '{'
    · exact Or.inr (fun hx => this ⟨hc, hx⟩)
    · exact Or.inl hc

theorem removeTemplatesF_head {f : Nat} {d : Char} {cs' : List Char}
    (hf : 1 ≤ f) (hd : isOpenTpl (d :: cs') = false) :
    ∃ t, removeTemplatesF f (d :: cs') = d :: t := by
  cases f with
  | zero => omega
  | succ g =>
    rw [removeTemplatesF, if_neg (by rw [hd]; exact Bool.false_ne_true)]
    exact ⟨_, rfl⟩

/-- The output of `remove_templates` never contains two adjacent `{`
characters: an emitted `{` is never followed by another `{`, whether the
next output character comes from the next input position or from beyond a
skipped template. -/
theorem removeTemplatesF_no_open : ∀ (f : Nat) (u : List Char), u.length ≤ f →
    hasOpenPair (removeTemplatesF f u) = false := by
  intro f
  induction f with
  | zero =>
    intro u hu
    obtain rfl : u = [] := List.length_eq_zero.mp (Nat.le_zero.mp hu)
    rfl
  | succ f ih =>
    intro u hu
    cases u with
    | nil => rfl
    | cons c cs =>
      simp only [List.length_cons] at hu
      rw [removeTemplatesF]
      have hdl : (((c :: cs).drop 2).length) = (c :: cs).length - 2 :=
        List.length_drop 2 _
      simp only [List.length_cons] at hdl
      by_cases h1 : isOpenTpl (c :: cs) = true
      · rw [if_pos h1]
        rcases hst : scanTpl 0 (c :: cs) with _ | rest
        · dsimp only
          apply ih
          have h2 := findResumeF_length ((c :: cs).drop 2).length ((c :: cs).drop 2)
          rw [show findResume ((c :: cs).drop 2) =
            findResumeF ((c :: cs).drop 2).length ((c :: cs).drop 2) from rfl]
          omega
        · dsimp only
          apply ih
          have h2 := scanTplF_length hst
          simp only [List.length_cons] at h2
          omega
      · rw [if_neg h1]
        have hcs : cs.length ≤ f := by omega
        refine hasOpenPair_cons (ih cs hcs) ?_
        intro x xs hX ⟨hc, hx⟩
        -- c = '{' forces head cs ≠ '{', and the head of the output on cs is
        -- cs's head or nothing
        cases cs with
        | nil =>
          rw [show removeTemplatesF f [] = [] by cases f <;> rfl] at hX
          exact absurd hX (by simp)
        | cons d cs' =>
          have hd : d ≠ '{' := by
            intro hd
            exact h1 (by rw [isOpenTpl, hc, hd]; rfl)
          have hf1 : 1 ≤ f := by
            simp only [List.length_cons] at hcs
            omega
          obtain ⟨t, ht⟩ := removeTemplatesF_head hf1 (isOpenTpl_false_of_ne cs' hd)
          rw [ht] at hX
          obtain ⟨h3, _⟩ := List.cons.injEq .. ▸ hX
          exact hd (by rw [h3, hx])

theorem removeTemplates_no_open (u : List Char) :
    hasOpenPair (removeTemplates u) = false :=
  removeTemplatesF_no_open u.length u le_rfl

/-- C2 counterexample: the input `}{{}}}` is balanced — its token stream is
`}`, `{{`, `}}`, `}` with every open matched — yet the output `}}` contains
the close marker `}}`, formed by the two stray braces juxtaposed around the
removed template. -/
theorem claim_C2_counterexample :
    balancedTpl "\x7d\x7b\x7b\x7d\x7d\x7d" = true ∧
      remove_templates "\x7d\x7b\x7b\x7d\x7d\x7d" = "\x7d\x7d" ∧
      hasClosePair ((remove_templates "\x7d\x7b\x7b\x7d\x7d\x7d").toList) = true :=
  ⟨by decide, by decide, by decide⟩

/-- C2 amended: for every input whose template markers are well-balanced
(greedy tokenisation, every `{{` matched by `}}`, no unmatched `}}`), the
output of the template-elimination stage contains zero occurrences of
`{{`; occurrences of `}}` can remain, re-formed by juxtaposition of the
characters surrounding a removed template. -/
theorem claim_C2_amended (s : String) (h : balancedTpl s = true) :
    hasOpenPair ((remove_templates s).toList) = false :=
  removeTemplates_no_open s.toList

/-- Witness for C2 amended at a concrete balanced input. -/
theorem claim_C2_witness :
    balancedTpl "a{{x}}b" = true ∧
      hasOpenPair ((remove_templates "a{{x}}b").toList) = false :=
  ⟨by decide, claim_C2_amended _ (by decide)⟩

/-- The outer loop of `remove_templates` with one unit of fuel per
iteration, `none` when the fuel runs out before the scan finishes. -/
def removeTemplatesChecked : Nat → List Char → Option (List Char)
  | _, [] => some []
  | 0, _ :: _ => none
  | f + 1, c :: cs =>
    if isOpenTpl (c :: cs) then
      match scanTpl 0 (c :: cs) with
      | some rest => removeTemplatesChecked f rest
      | none => removeTemplatesChecked f (findResume ((c :: cs).drop 2))
    else (removeTemplatesChecked f cs).map (fun t => c :: t)

/-- Fuel at least the input length suffices for the template scan: each
outer iteration strictly advances the cursor (past a matched close marker,
to the recovery line's start, to end-of-input, or by one character). -/
theorem removeTemplatesChecked_eq : ∀ (f : Nat) (u : List Char),
    u.length ≤ f → removeTemplatesChecked f u = some (removeTemplatesF f u) := by
  intro f
  induction f with
  | zero =>
    intro u hu
    obtain rfl : u = [] := List.length_eq_zero.mp (Nat.le_zero.mp hu)
    rfl
  | succ f ih =>
    intro u hu
    cases u with
    | nil => rfl
    | cons c cs =>
      simp only [List.length_cons] at hu
      rw [removeTemplatesChecked, removeTemplatesF]
      have hdl : (((c :: cs).drop 2).length) = (c :: cs).length - 2 :=
        List.length_drop 2 _
      simp only [List.length_cons] at hdl
      by_cases h1 : isOpenTpl (c :: cs) = true
      · rw [if_pos h1, if_pos h1]
        rcases hst : scanTpl 0 (c :: cs) with _ | rest <;> dsimp only
        · apply ih
          have h2 := findResumeF_length ((c :: cs).drop 2).length ((c :: cs).drop 2)
          rw [show findResume ((c :: cs).drop 2) =
            findResumeF ((c :: cs).drop 2).length ((c :: cs).drop 2) from rfl]
          omega
        · apply ih
          have h2 := scanTplF_length hst
          simp only [List.length_cons] at h2
          omega
      · rw [if_neg h1, if_neg h1]
        rw [ih cs (by omega)]
        rfl

/-- C7: the template-elimination scan terminates on every input: the
fuelled checked variant, given fuel equal to the input length (one unit per
outer-loop iteration, the cursor advancing at least one character each
time), never exhausts its fuel and returns exactly the function's output. -/
theorem claim_C7_template_scan_terminates (s : String) :
    removeTemplatesChecked s.toList.length s.toList =
      some ((remove_templates s).toList) :=
  removeTemplatesChecked_eq s.toList.length s.toList le_rfl

/-! ### remove_categories -/

/-- The literal `[[Category:` of the first category pattern. -/
def catEn : List Char := "[[Category:".toList

/-- The bare Tamil category keyword `பகுப்பு:`. -/
def taKey : List Char := "பகுப்பு:".toList

/-- The literal `[[பகுப்பு:` of the second category pattern. -/
def catTa : List Char := '[' :: '[' :: taKey

theorem startsWithL_length : ∀ {p u : List Char}, startsWithL p u = true →
    p.length ≤ u.length := by
  intro p
  induction p with
  | nil => intro u _; simp
  | cons a ps ih =>
    intro u h
    cases u with
    | nil => simp [startsWithL] at h
    | cons c cs =>
      rw [startsWithL, Bool.and_eq_true] at h
      have := ih h.2
      simp only [List.length_cons]
      omega

/-- Matcher of `\[\[Category:[^\]]+\]\]` → `''` (case-sensitive). -/
def tryCategoryEn : Matcher := fun u =>
  if startsWithL catEn u then
    let v := u.drop catEn.length
    let run := v.takeWhile (fun c => c ≠ ']')
    if run.isEmpty then none
    else if startsWithL [']', ']'] (v.drop run.length) then
      some ([], (v.drop run.length).drop 2)
    else none
  else none

/-- Lazy scan for the first `]]` with no intervening newline
(`.*?\]\]`, no DOTALL). -/
def findBrackets2 : List Char → Option (List Char)
  | [] => none
  | c :: cs =>
    if startsWithL [']', ']'] (c :: cs) then some ((c :: cs).drop 2)
    else if c = '\n' then none
    else findBrackets2 cs

/-- Matcher of `\[\[பகுப்பு:.*?\]\]` → `''`. -/
def tryCategoryTa : Matcher := fun u =>
  if startsWithL catTa u then
    (findBrackets2 (u.drop catTa.length)).map (fun r => ([], r))
  else none

/-- Matcher of the MULTILINE pattern `பகுப்பு:.*$` → `''`: from a bare
keyword occurrence, delete to the end of the line (the newline itself is
kept, `$` being zero-width). -/
def tryCategoryBare : Matcher := fun u =>
  if startsWithL taKey u then some ([], u.dropWhile (fun c => c ≠ '\n'))
  else none

theorem tryCategoryEn_shrinks : Shrinks tryCategoryEn := by
  intro c cs repl rest h
  rw [tryCategoryEn] at h
  by_cases h1 : startsWithL catEn (c :: cs) = true
  · rw [if_pos h1] at h
    dsimp only at h
    by_cases h2 : (((c :: cs).drop catEn.length).takeWhile
        (fun c => c ≠ ']')).isEmpty = true
    · rw [if_pos h2] at h
      exact absurd h (by simp)
    · rw [if_neg h2] at h
      by_cases h3 : startsWithL [']', ']']
          (((c :: cs).drop catEn.length).drop
            (((c :: cs).drop catEn.length).takeWhile (fun c => c ≠ ']')).length) = true
      · rw [if_pos h3] at h
        obtain ⟨_, hrest⟩ := Prod.mk.injEq .. ▸ Option.some.inj h
        rw [← hrest]
        have e1 := List.length_drop catEn.length (c :: cs)
        have e2 := List.length_drop
          (((c :: cs).drop catEn.length).takeWhile (fun c => c ≠ ']')).length
          ((c :: cs).drop catEn.length)
        have e3 := List.length_drop 2
          (((c :: cs).drop catEn.length).drop
            (((c :: cs).drop catEn.length).takeWhile (fun c => c ≠ ']')).length)
        have hcat : catEn.length = 11 := by decide
        simp only [List.length_cons] at e1 ⊢
        omega
      · rw [if_neg h3] at h
        exact absurd h (by simp)
  · rw [if_neg h1] at h
    exact absurd h (by simp)

theorem findBrackets2_length : ∀ {u r : List Char},
    findBrackets2 u = some r → r.length + 2 ≤ u.length := by
  intro u
  induction u with
  | nil => intro r h; simp [findBrackets2] at h
  | cons c cs ih =>
    intro r h
    rw [findBrackets2] at h
    by_cases h1 : startsWithL [']', ']'] (c :: cs) = true
    · rw [if_pos h1] at h
      have hr := Option.some.inj h
      have h2 : (2 : Nat) ≤ (c :: cs).length := by
        simpa using startsWithL_length h1
      rw [← hr]
      simp only [List.length_drop]
      omega
    · rw [if_neg h1] at h
      by_cases h2 : c = '\n'
      · rw [if_pos h2] at h
        exact absurd h (by simp)
      · rw [if_neg h2] at h
        have := ih h
        simp only [List.length_cons]
        omega

theorem tryCategoryTa_shrinks : Shrinks tryCategoryTa := by
  intro c cs repl rest h
  rw [tryCategoryTa] at h
  by_cases h1 : startsWithL catTa (c :: cs) = true
  · rw [if_pos h1, Option.map_eq_some'] at h
    obtain ⟨r, hfb, heq⟩ := h
    obtain ⟨_, hrest⟩ := Prod.mk.injEq .. ▸ heq
    have h2 := findBrackets2_length hfb
    have e1 := List.length_drop catTa.length (c :: cs)
    have hcat : catTa.length = 10 := by decide
    rw [← hrest]
    simp only [List.length_cons] at e1 ⊢
    omega
  · rw [if_neg h1] at h
    exact absurd h (by simp)

theorem tryCategoryBare_shrinks : Shrinks tryCategoryBare := by
  intro c cs repl rest h
  rw [tryCategoryBare] at h
  by_cases h1 : startsWithL taKey (c :: cs) = true
  · rw [if_pos h1] at h
    obtain ⟨_, hrest⟩ := Prod.mk.injEq .. ▸ Option.some.inj h
    have hc : c ≠ '\n' := by
      intro hc
      rw [show taKey = 'ப' :: taKey.tail from rfl, startsWithL, hc] at h1
      simp at h1
    rw [← hrest]
    rw [List.dropWhile_cons]
    rw [if_pos (by simp [hc])]
    exact dropWhile_len_le _ _
  · rw [if_neg h1] at h
    exact absurd h (by simp)

/-- `remove_categories` on character lists: the three substitutions in the
source's order. -/
def removeCategories (u : List Char) : List Char :=
  scan tryCategoryBare (scan tryCategoryTa (scan tryCategoryEn u))

/-- `remove_categories(text)`. -/
def remove_categories (s : String) : String :=
  (removeCategories s.toList).asString

/-- Split on newlines (Python `str.split('\n')`). -/
def splitNl : List Char → List (List Char)
  | [] => [[]]
  | c :: cs =>
    if c = '\n' then [] :: splitNl cs
    else
      match splitNl cs with
      | [] => [[c]]
      | l :: ls => (c :: l) :: ls

/-- Truncate one line at the first bare Tamil category keyword. -/
def truncAtKey : List Char → List Char
  | [] => []
  | c :: cs => if startsWithL taKey (c :: cs) then [] else c :: truncAtKey cs

theorem splitNl_ne_nil : ∀ (u : List Char), splitNl u ≠ [] := by
  intro u
  cases u with
  | nil => simp [splitNl]
  | cons c cs =>
    rw [splitNl]
    by_cases hc : c = '\n'
    · rw [if_pos hc]
      simp
    · rw [if_neg hc]
      rcases h : splitNl cs with _ | ⟨l, ls⟩ <;> simp

theorem joinSep_nil_cons (sep : List Char) (M : List (List Char)) (hM : M ≠ []) :
    joinSep sep ([] :: M) = sep ++ joinSep sep M := by
  cases M with
  | nil => exact absurd rfl hM
  | cons m ms => rfl

theorem joinSep_cons_head (sep : List Char) (c : Char) (x : List Char)
    (xs : List (List Char)) :
    joinSep sep ((c :: x) :: xs) = c :: joinSep sep (x :: xs) := by
  cases xs with
  | nil => rfl
  | cons y ys => rfl

theorem splitNl_head_pre : ∀ {cs l : List Char} {ls : List (List Char)},
    splitNl cs = l :: ls → l <+: cs := by
  intro cs
  induction cs with
  | nil =>
    intro l ls h
    rw [show splitNl [] = [[]] from rfl] at h
    injection h with h1 h2
    subst h1
    exact List.nil_prefix
  | cons c cs ih =>
    intro l ls h
    rw [splitNl] at h
    by_cases hc : c = '\n'
    · rw [if_pos hc] at h
      injection h with h1 h2
      subst h1
      exact List.nil_prefix
    · rw [if_neg hc] at h
      rcases h2 : splitNl cs with _ | ⟨l1, ls1⟩ <;> rw [h2] at h
      · exact absurd h2 (splitNl_ne_nil cs)
      · injection h with h1 h3
        subst h1
        obtain ⟨t, ht⟩ := ih h2
        exact ⟨t, by rw [List.cons_append, ht]⟩

theorem startsWithL_extend : ∀ {p u w : List Char},
    startsWithL p u = true → u <+: w → startsWithL p w = true := by
  intro p
  induction p with
  | nil => intro u w _ _; rfl
  | cons a ps ih =>
    intro u w h hp
    cases u with
    | nil => simp [startsWithL] at h
    | cons c cs =>
      rw [startsWithL, Bool.and_eq_true] at h
      obtain ⟨t, ht⟩ := hp
      rw [← ht]
      rw [show (c :: cs) ++ t = c :: (cs ++ t) from rfl, startsWithL,
        Bool.and_eq_true]
      exact ⟨h.1, ih h.2 ⟨t, rfl⟩⟩

theorem startsWith_takeWhile {q : Char → Bool} : ∀ {p u : List Char},
    startsWithL p u = true → (∀ c ∈ p, q c = true) →
      startsWithL p (u.takeWhile q) = true := by
  intro p
  induction p with
  | nil => intro u _ _; rfl
  | cons a ps ih =>
    intro u h hq
    cases u with
    | nil => simp [startsWithL] at h
    | cons c cs =>
      rw [startsWithL, Bool.and_eq_true] at h
      rw [List.takeWhile_cons, if_pos (by
        have := hq c (by rw [show a = c from by simpa using h.1]; exact
          List.mem_cons_self _ _)
        simpa using this)]
      rw [startsWithL, Bool.and_eq_true]
      exact ⟨h.1, ih h.2 (fun x hx => hq x (List.mem_cons_of_mem _ hx))⟩

theorem splitNl_no_newline : ∀ {u : List Char}, (∀ c ∈ u, c ≠ '\n') →
    splitNl u = [u] := by
  intro u
  induction u with
  | nil => intro _; rfl
  | cons c cs ih =>
    intro h
    rw [splitNl, if_neg (h c (List.mem_cons_self _ _))]
    rw [ih (fun x hx => h x (List.mem_cons_of_mem _ hx))]

theorem splitNl_append_newline : ∀ {w : List Char} (v : List Char),
    (∀ c ∈ w, c ≠ '\n') → splitNl (w ++ '\n' :: v) = w :: splitNl v := by
  intro w
  induction w with
  | nil =>
    intro v _
    rw [show ([] : List Char) ++ '\n' :: v = '\n' :: v from rfl, splitNl,
      if_pos rfl]
  | cons c w1 ih =>
    intro v h
    rw [show (c :: w1) ++ '\n' :: v = c :: (w1 ++ '\n' :: v) from rfl, splitNl,
      if_neg (h c (List.mem_cons_self _ _))]
    rw [ih v (fun x hx => h x (List.mem_cons_of_mem _ hx))]

theorem dropWhile_head_false {p : Char → Bool} : ∀ {l : List Char} {d : Char}
    {v : List Char}, l.dropWhile p = d :: v → p d = false := by
  intro l
  induction l with
  | nil =>
    intro d v h
    simp [List.dropWhile] at h
  | cons c cs ih =>
    intro d v h
    rw [List.dropWhile_cons] at h
    by_cases hc : p c = true
    · rw [if_pos hc] at h
      exact ih h
    · rw [if_neg hc] at h
      injection h with h1 h2
      simp only [Bool.not_eq_true] at hc
      rw [← h1]
      exact hc

/-- The bare-keyword pass equals per-line truncation at the first keyword
occurrence: each line of the text loses everything from its first
`பகுப்பு:` onward, and lines without the keyword are unchanged. -/
theorem scan_bare_eq_lines : ∀ (n : Nat) (u : List Char), u.length ≤ n →
    scan tryCategoryBare u = joinSep ['\n'] ((splitNl u).map truncAtKey) := by
  intro n
  induction n with
  | zero =>
    intro u hu
    obtain rfl : u = [] := List.length_eq_zero.mp (Nat.le_zero.mp hu)
    rfl
  | succ n ih =>
    intro u hu
    cases u with
    | nil => rfl
    | cons c cs =>
      simp only [List.length_cons] at hu
      by_cases hkey : startsWithL taKey (c :: cs) = true
      · -- a keyword match: delete to end of line, resume at the newline
        have hm : tryCategoryBare (c :: cs) =
            some ([], (c :: cs).dropWhile (fun x => x ≠ '\n')) := by
          rw [tryCategoryBare, if_pos hkey]
        rw [scan_cons_some tryCategoryBare_shrinks hm, List.nil_append]
        have hsplit : (c :: cs).takeWhile (fun x => x ≠ '\n') ++
            (c :: cs).dropWhile (fun x => x ≠ '\n') = c :: cs :=
          List.takeWhile_append_dropWhile ..
        have hwnl : ∀ x ∈ (c :: cs).takeWhile (fun x => x ≠ '\n'),
            x ≠ '\n' := by
          intro x hx
          simpa using mem_takeWhile_pred hx
        have htw : truncAtKey ((c :: cs).takeWhile (fun x => x ≠ '\n')) = [] := by
          have hsw : startsWithL taKey
              ((c :: cs).takeWhile (fun x => x ≠ '\n')) = true := by
            refine startsWith_takeWhile hkey ?_
            intro x hx
            have hxn : x ≠ '\n' := by
              intro hx1
              rw [hx1] at hx
              revert hx
              decide
            simpa using hxn
          rcases hwc : (c :: cs).takeWhile (fun x => x ≠ '\n') with _ | ⟨a, as⟩
          · rfl
          · rw [hwc] at hsw
            rw [truncAtKey, if_pos hsw]
        rcases hrc : (c :: cs).dropWhile (fun x => x ≠ '\n') with _ | ⟨d, v⟩
        · -- no newline in the line: the whole text is one line
          have hone : splitNl (c :: cs) = [c :: cs] := by
            refine splitNl_no_newline ?_
            intro x hx
            rw [← hsplit, hrc, List.append_nil] at hx
            exact hwnl x hx
          rw [scan_nil, hone]
          rw [show ([c :: cs].map truncAtKey) = [truncAtKey (c :: cs)] from rfl]
          rw [show truncAtKey (c :: cs) = [] by rw [truncAtKey, if_pos hkey]]
          rfl
        · have hd : d = '\n' := by simpa using dropWhile_head_false hrc
          subst hd
          have hdecomp : c :: cs =
              (c :: cs).takeWhile (fun x => x ≠ '\n') ++ '\n' :: v := by
            conv_lhs => rw [← hsplit, hrc]
          rw [scan_cons_none (show tryCategoryBare ('\n' :: v) = none by
            rw [tryCategoryBare, if_neg (by
              rw [show taKey = 'ப' :: taKey.tail from rfl, startsWithL]
              simp)])]
          have hlen : v.length ≤ n := by
            have h0 := congrArg List.length hdecomp
            simp only [List.length_cons, List.length_append] at h0
            omega
          rw [ih v hlen]
          rw [hdecomp, splitNl_append_newline v hwnl]
          rw [List.map_cons, htw]
          rw [joinSep_nil_cons _ _ (fun h0 =>
            splitNl_ne_nil v (List.map_eq_nil_iff.mp h0))]
          rfl
      · have hm : tryCategoryBare (c :: cs) = none := by
          rw [tryCategoryBare, if_neg hkey]
        rw [scan_cons_none hm]
        rw [ih cs (by omega)]
        by_cases hc : c = '\n'
        · subst hc
          rw [show splitNl ('\n' :: cs) = [] :: splitNl cs by
            rw [splitNl, if_pos rfl]]
          rw [List.map_cons]
          rw [show truncAtKey ([] : List Char) = [] from rfl]
          rw [joinSep_nil_cons _ _ (fun h0 =>
            splitNl_ne_nil cs (List.map_eq_nil_iff.mp h0))]
          rfl
        · rcases h2 : splitNl cs with _ | ⟨l, ls⟩
          · exact absurd h2 (splitNl_ne_nil cs)
          · rw [show splitNl (c :: cs) = (c :: l) :: ls by
              rw [splitNl, if_neg hc, h2]]
            have htk : truncAtKey (c :: l) = c :: truncAtKey l := by
              rw [truncAtKey, if_neg (by
                intro hsw
                obtain ⟨t, ht⟩ := splitNl_head_pre h2
                exact hkey (startsWithL_extend hsw
                  ⟨t, by rw [List.cons_append, ht]⟩))]
            rw [List.map_cons, List.map_cons, htk]
            rw [joinSep_cons_head]


theorem tryCategoryEn_none_of_no_bracket {c : Char} {cs : List Char}
    (h : c ≠ '[') : tryCategoryEn (c :: cs) = none := by
  rw [tryCategoryEn, if_neg ?_]
  intro hs
  rw [show catEn = '[' :: catEn.tail from rfl, startsWithL,
    Bool.and_eq_true] at hs
  exact h (show '[' = c by simpa using hs.1).symm

theorem tryCategoryTa_none_of_no_bracket {c : Char} {cs : List Char}
    (h : c ≠ '[') : tryCategoryTa (c :: cs) = none := by
  rw [tryCategoryTa, if_neg ?_]
  intro hs
  rw [show catTa = '[' :: '[' :: taKey from rfl, startsWithL,
    Bool.and_eq_true] at hs
  exact h (show '[' = c by simpa using hs.1).symm

theorem scan_id_of_head_safe {tm : Matcher}
    (hf : ∀ c cs, c ≠ '[' → tm (c :: cs) = none) :
    ∀ {u : List Char}, (∀ c ∈ u, c ≠ '[') → scan tm u = u := by
  intro u
  induction u with
  | nil =>
    intro _
    exact scan_nil tm
  | cons c cs ih =>
    intro h
    rw [scan_cons_none (hf c cs (h c (List.mem_cons_self _ _)))]
    rw [ih (fun x hx => h x (List.mem_cons_of_mem _ hx))]

/-- C10 counterexample: on the line `[[Category:A]]பகுப்பு:B` the bare
keyword `பகுப்பு:` has the text `[[Category:A]]` before it, yet the
category-stripping stage returns the empty string — the claim predicted the
pre-keyword text `[[Category:A]]` would be kept unchanged, but the
bracketed-Category pattern deletes it first. -/
theorem claim_C10_counterexample :
    remove_categories "[[Category:A]]பகுப்பு:B" = "" ∧
      remove_categories "[[Category:A]]பகுப்பு:B" ≠ "[[Category:A]]" := by
  constructor
  · decide
  · decide

/-- C10 (amended): on input free of the character `[` — so that neither
bracketed category pattern can fire — the category-stripping stage acts
exactly line by line: each line is truncated at the first occurrence of the
bare Tamil keyword `பகுப்பு:` (everything from the keyword to the end of
the line is deleted, text before it kept unchanged), and lines without the
keyword are kept whole. -/
theorem claim_C10_amended (s : String) (hb : ∀ c ∈ s.toList, c ≠ '[') :
    (remove_categories s).toList =
      joinSep ['\n'] ((splitNl s.toList).map truncAtKey) := by
  have h0 : (remove_categories s).toList =
      scan tryCategoryBare (scan tryCategoryTa (scan tryCategoryEn s.toList)) :=
    rfl
  rw [h0]
  rw [scan_id_of_head_safe (fun c cs hc => tryCategoryEn_none_of_no_bracket hc) hb]
  rw [scan_id_of_head_safe (fun c cs hc => tryCategoryTa_none_of_no_bracket hc) hb]
  exact scan_bare_eq_lines s.toList.length s.toList le_rfl

theorem claim_C10_witness :
    (∀ c ∈ ("xபகுப்பு:y\nz" : String).toList, c ≠ '[') ∧
      (remove_categories "xபகுப்பு:y\nz").toList =
        joinSep ['\n']
          ((splitNl ("xபகுப்பு:y\nz" : String).toList).map truncAtKey) :=
  ⟨by decide, claim_C10_amended _ (by decide)⟩

/- ===================== remove_html_comments_and_tags ===================== -/

/-- Case-insensitive search for the first occurrence of a literal — the lazy
`.*?lit` step under DOTALL; returns the text after the literal. -/
def findLitCI (pat : List Char) : List Char → Option (List Char)
  | [] => none
  | c :: cs =>
    if startsWithCI pat (c :: cs) then some ((c :: cs).drop pat.length)
    else findLitCI pat cs

/-- Matcher of `<!--.*?-->` (DOTALL) → `''`. -/
def tryComment : Matcher := fun u =>
  if startsWithL ['<', '!', '-', '-'] u then
    (findLitCI ['-', '-', '>'] (u.drop 4)).map (fun r => ([], r))
  else none

/-- Matcher of `<ref[^>]*?>.*?</ref>` (DOTALL, IGNORECASE) → `''`: the lazy
`[^>]*?>` stops at the first `>`, which is also the only `>` it can reach. -/
def tryRefPair : Matcher := fun u =>
  if startsWithCI ['<', 'r', 'e', 'f'] u then
    match (u.drop 4).dropWhile (fun c => c ≠ '>') with
    | [] => none
    | _ :: w =>
      (findLitCI ['<', '/', 'r', 'e', 'f', '>'] w).map (fun r => ([], r))
  else none

/-- Matcher of `<ref[^>]*/>` (IGNORECASE) → `''`: the greedy `[^>]*` must
end in `/` with the `>` right after (no backtracking can succeed
otherwise, `[^>]` never matching `>`). -/
def tryRefSingle : Matcher := fun u =>
  if startsWithCI ['<', 'r', 'e', 'f'] u then
    let v := u.drop 4
    let run := v.takeWhile (fun c => c ≠ '>')
    if run.reverse.head? = some '/' then
      match v.drop run.length with
      | _ :: w => some ([], w)
      | [] => none
    else none
  else none

/-- Matcher of `<nowiki>.*?</nowiki>` (DOTALL, IGNORECASE) → `''`. -/
def tryNowiki : Matcher := fun u =>
  if startsWithCI ['<', 'n', 'o', 'w', 'i', 'k', 'i', '>'] u then
    (findLitCI ['<', '/', 'n', 'o', 'w', 'i', 'k', 'i', '>'] (u.drop 8)).map
      (fun r => ([], r))
  else none

/-- Matcher of `<br\s*/?>` (IGNORECASE) → `'\n'`: greedy whitespace, then an
optional slash, then `>`. -/
def tryBr : Matcher := fun u =>
  if startsWithCI ['<', 'b', 'r'] u then
    match (u.drop 3).dropWhile pyWs with
    | c2 :: w =>
      if c2 = '>' then some (['\n'], w)
      else if c2 = '/' then
        match w with
        | c3 :: w2 => if c3 = '>' then some (['\n'], w2) else none
        | [] => none
      else none
    | [] => none
  else none

/-- Matcher of `<gallery[^>]*?>.*?</gallery>` (DOTALL, IGNORECASE) → `''`. -/
def tryGallery : Matcher := fun u =>
  if startsWithCI ['<', 'g', 'a', 'l', 'l', 'e', 'r', 'y'] u then
    match (u.drop 8).dropWhile (fun c => c ≠ '>') with
    | [] => none
    | _ :: w =>
      (findLitCI ['<', '/', 'g', 'a', 'l', 'l', 'e', 'r', 'y', '>'] w).map
        (fun r => ([], r))
  else none

/-- `remove_html_comments_and_tags`: the five `re.sub` passes in source
order. -/
def remove_html_comments_and_tags_list (u : List Char) : List Char :=
  scan tryGallery (scan tryBr (scan tryNowiki
    (scan tryRefSingle (scan tryRefPair (scan tryComment u)))))

/- ===================== remove_images_and_files ===================== -/

/-- The image-namespace alternatives `File|Image|படிமம்|கோப்பு`
(IGNORECASE; the patterns are stored lowercase). -/
def imgNames : List (List Char) :=
  [['f', 'i', 'l', 'e'], ['i', 'm', 'a', 'g', 'e'],
   "படிமம்".toList, "கோப்பு".toList]

def isBracketChar (c : Char) : Bool := c = '[' || c = ']'

/-- The image-pattern body `[^\[\]]*(?:\[[^\[\]]*\][^\[\]]*)*\]\]`:
bracket-free text interleaved with single-level `[...]` groups, closed by
`]]`; nested `[[` (or a lone unclosed bracket) makes the whole match fail. -/
def imgBodyF : Nat → List Char → Option (List Char)
  | 0, _ => none
  | f + 1, u =>
    match u.dropWhile (fun c => !isBracketChar c) with
    | d :: t =>
      if d = ']' then
        match t with
        | e :: r => if e = ']' then some r else none
        | [] => none
      else if d = '[' then
        match t.dropWhile (fun c => !isBracketChar c) with
        | e :: w => if e = ']' then imgBodyF f w else none
        | [] => none
      else none
    | [] => none

/-- Matcher of the image pattern
`\[\[:?(?:File|Image|படிமம்|கோப்பு):…\]\]` → `''`. -/
def tryImage : Matcher := fun u =>
  if startsWithL ['[', '['] u then
    let v := u.drop 2
    let v1 := if v.head? = some ':' then v.drop 1 else v
    match matchKw imgNames v1 with
    | some v2 =>
      match v2 with
      | d :: v3 =>
        if d = ':' then (imgBodyF v3.length v3).map (fun r => ([], r)) else none
      | [] => none
    | none => none
  else none

/-- The source's bounded fixed-point loop (`for _ in range(3)` with an
early break on no change) equals three straight applications of the
substitution pass. -/
def remove_images3 (u : List Char) : List Char :=
  scan tryImage (scan tryImage (scan tryImage u))

/-- Python `\w` (alphanumeric or underscore) restricted to the inputs at
hand: ASCII letters, digits and underscore; inside the Tamil block the
letters and digits count as word characters while the combining vowel
signs, the virama and the symbols do not; other characters beyond ASCII
are treated as word characters. -/
def isWordChar (c : Char) : Bool :=
  if c.val < 128 then
    ('a' ≤ c && c ≤ 'z') || ('A' ≤ c && c ≤ 'Z') ||
    ('0' ≤ c && c ≤ '9') || c = '_'
  else if 0x0B80 ≤ c.val && c.val ≤ 0x0BFF then
    c.val = 0x0B83 || (0x0B85 ≤ c.val && c.val ≤ 0x0B8A) ||
    (0x0B8E ≤ c.val && c.val ≤ 0x0B90) || (0x0B92 ≤ c.val && c.val ≤ 0x0B95) ||
    (0x0B99 ≤ c.val && c.val ≤ 0x0B9A) || c.val = 0x0B9C ||
    (0x0B9E ≤ c.val && c.val ≤ 0x0B9F) || (0x0BA3 ≤ c.val && c.val ≤ 0x0BA4) ||
    (0x0BA8 ≤ c.val && c.val ≤ 0x0BAA) || (0x0BAE ≤ c.val && c.val ≤ 0x0BB9) ||
    c.val = 0x0BD0 || (0x0BE6 ≤ c.val && c.val ≤ 0x0BF2)
  else true

/-- The leftover image-parameter keywords, in the pattern's alternation
order (`thumb` is tried before `thumbnail`, `frame` before `frameless`). -/
def imgKeywords : List (List Char) :=
  [['t', 'h', 'u', 'm', 'b'], ['t', 'h', 'u', 'm', 'b', 'n', 'a', 'i', 'l'],
   ['f', 'r', 'a', 'm', 'e'], ['f', 'r', 'a', 'm', 'e', 'l', 'e', 's', 's'],
   ['b', 'o', 'r', 'd', 'e', 'r'], ['l', 'e', 'f', 't'],
   ['r', 'i', 'g', 'h', 't'], ['c', 'e', 'n', 't', 'e', 'r'],
   ['n', 'o', 'n', 'e']]

/-- Try the keyword alternatives in order; an alternative is kept only if
the trailing `\b` holds after it (otherwise the regex backtracks to the
next alternative, which matters for the prefix pairs). -/
def kwAltMatch : List (List Char) → List Char → Option (List Char)
  | [], _ => none
  | kw :: kws, u =>
    if startsWithL kw u then
      match u.drop kw.length with
      | [] => some []
      | d :: r2 => if isWordChar d then kwAltMatch kws u else some (d :: r2)
    else kwAltMatch kws u

/-- The `\d+px` alternative (ASCII digits), with its trailing `\b`. -/
def tryPx (u : List Char) : Option (List Char) :=
  let ds := u.takeWhile (fun c => c.isDigit)
  if ds.isEmpty then none
  else
    match u.drop ds.length with
    | c1 :: c2 :: r =>
      if c1 = 'p' && c2 = 'x' then
        match r with
        | [] => some []
        | d :: _ => if isWordChar d then none else some r
      else none
    | _ => none

/-- A matcher that also sees the character before the current position (for
`\b` and MULTILINE `^`); a match reports the replacement, the rest, and the
character standing right before the rest. -/
def MatcherP : Type :=
  Option Char → List Char → Option (List Char × List Char × Option Char)

def ShrinksP (tm : MatcherP) : Prop :=
  ∀ p c cs repl rest q, tm p (c :: cs) = some (repl, rest, q) →
    rest.length ≤ cs.length

def scanPF (tm : MatcherP) : Nat → Option Char → List Char → List Char
  | _, _, [] => []
  | 0, _, u => u
  | f + 1, p, c :: cs =>
    match tm p (c :: cs) with
    | some (repl, rest, q) => repl ++ scanPF tm f q rest
    | none => c :: scanPF tm f (some c) cs

def scanP (tm : MatcherP) (u : List Char) : List Char := scanPF tm u.length none u

/-- The character of `u` standing right before the suffix `rest`. -/
def lastBefore (u rest : List Char) : Option Char :=
  (u.take (u.length - rest.length)).getLast?

/-- Matcher of `\b(?:thumb|…|none|\d+px)\b\|?` → `''`: the leading `\b`
needs a non-word character (or start of text) before the keyword. -/
def tryImgKw : MatcherP := fun p u =>
  if (p.map isWordChar).getD false then none
  else
    match kwAltMatch imgKeywords u with
    | some r =>
      match r with
      | d :: r2 =>
        if d = '|' then some ([], r2, some '|')
        else some ([], d :: r2, lastBefore u (d :: r2))
      | [] => some ([], [], lastBefore u [])
    | none =>
      match tryPx u with
      | some r =>
        match r with
        | d :: r2 =>
          if d = '|' then some ([], r2, some '|')
          else some ([], d :: r2, lastBefore u (d :: r2))
        | [] => some ([], [], lastBefore u [])
      | none => none

/-- Matcher of `^\s*\)\s*\]\]` (MULTILINE) → `''`: fires only at the start
of the text or right after a newline. -/
def tryParenLine : MatcherP := fun p u =>
  if p = none || p = some '\n' then
    match u.dropWhile pyWs with
    | d :: v =>
      if d = ')' then
        match v.dropWhile pyWs with
        | e :: w =>
          if e = ']' then
            match w with
            | e2 :: w2 => if e2 = ']' then some ([], w2, some ']') else none
            | [] => none
          else none
        | [] => none
      else none
    | [] => none
  else none

/-- Matcher of `\(\s*\)` → `''`. -/
def tryParens : Matcher := fun u =>
  match u with
  | c :: v =>
    if c = '(' then
      match v.dropWhile pyWs with
      | d :: w => if d = ')' then some ([], w) else none
      | [] => none
    else none
  | [] => none

/-- `remove_images_and_files`: the bounded image-pattern loop, the parameter
keyword sweep, and the two cleanup substitutions. -/
def remove_images_and_files_list (u : List Char) : List Char :=
  scan tryParens (scanP tryParenLine (scanP tryImgKw (remove_images3 u)))

/- ===================== link conversion ===================== -/

/-- `\[(?:https?://|ftp://)`: the scheme alternatives after the bracket. -/
def schemeDrop (u : List Char) : Option (List Char) :=
  if startsWithL ['h', 't', 't', 'p', 's', ':', '/', '/'] u then some (u.drop 8)
  else if startsWithL ['h', 't', 't', 'p', ':', '/', '/'] u then some (u.drop 7)
  else if startsWithL ['f', 't', 'p', ':', '/', '/'] u then some (u.drop 6)
  else none

/-- Matcher of `\[(?:https?://|ftp://)([^\s\]]+)(?:\s+([^\]]+))?\]` with the
source's replacement function: the label if the label group matched, else
`''`. When the whitespace run after the URL is followed directly by `]`,
backtracking still matches with the run's last whitespace character as the
label — provided the run has at least two characters. -/
def tryExtLink : Matcher := fun u =>
  match u with
  | c :: v =>
    if c = '[' then
      match schemeDrop v with
      | none => none
      | some v1 =>
        let url := v1.takeWhile (fun c => !pyWs c && c ≠ ']')
        if url.isEmpty then none
        else
          match v1.drop url.length with
          | d :: v2 =>
            if d = ']' then some ([], v2)
            else
              let ws := (d :: v2).takeWhile pyWs
              if ws.isEmpty then none
              else
                match (d :: v2).drop ws.length with
                | e :: v3 =>
                  if e = ']' then
                    if 2 ≤ ws.length then
                      match ws.reverse with
                      | lc :: _ => some ([lc], v3)
                      | [] => none
                    else none
                  else
                    let lab := (e :: v3).takeWhile (fun c => c ≠ ']')
                    if lab.isEmpty then none
                    else
                      match (e :: v3).drop lab.length with
                      | e2 :: w => if e2 = ']' then some (lab, w) else none
                      | [] => none
                | [] => none
          | [] => none
    else none
  | [] => none

def convert_external_links_list (u : List Char) : List Char := scan tryExtLink u

/-- The non-content namespace prefixes of `convert_internal_links`. -/
def nsPrefixes : List (List Char) :=
  [['f', 'i', 'l', 'e'], ['i', 'm', 'a', 'g', 'e'],
   ['c', 'a', 't', 'e', 'g', 'o', 'r', 'y'], ['h', 'e', 'l', 'p'],
   ['w', 'i', 'k', 'i', 'p', 'e', 'd', 'i', 'a'],
   "படிமம்".toList, "கோப்பு".toList]

/-- `':' in page and page.lower().split(':', 1)[0] in (…)` (ASCII
lowering). -/
def isNsPage (page : List Char) : Bool :=
  page.contains ':' &&
    nsPrefixes.contains ((page.takeWhile (fun c => c ≠ ':')).map Char.toLower)

/-- Matcher of `\[\[([^|\]]+)(?:\|([^]]+))?\]\]` with the source's
replacement function: `''` for a namespace page, else the label if present,
else the page. -/
def tryIntLink : Matcher := fun u =>
  if startsWithL ['[', '['] u then
    let v := u.drop 2
    let page := v.takeWhile (fun c => c ≠ '|' && c ≠ ']')
    if page.isEmpty then none
    else
      match v.drop page.length with
      | d :: t =>
        if d = ']' then
          match t with
          | e :: w =>
            if e = ']' then some (if isNsPage page then [] else page, w)
            else none
          | [] => none
        else if d = '|' then
          let lab := t.takeWhile (fun c => c ≠ ']')
          if lab.isEmpty then none
          else
            match t.drop lab.length with
            | e1 :: t2 =>
              if e1 = ']' then
                match t2 with
                | e2 :: w =>
                  if e2 = ']' then some (if isNsPage page then [] else lab, w)
                  else none
                | [] => none
              else none
            | [] => none
        else none
      | [] => none
  else none

def convert_internal_links_list (u : List Char) : List Char := scan tryIntLink u

/- ===================== remove_html_attributes ===================== -/

/-- `remove_html_attributes`: the double-quote pass, then the single-quote
pass (same keyword patterns as the table converter's). -/
def remove_html_attributes_list (u : List Char) : List Char :=
  scan (tryAttrPlain apos) (scan (tryAttrPlain '"') u)

/- ===================== remove_metadata_sections ===================== -/

def metaNames1 : List (List Char) :=
  ["இவற்றையும் பார்க்க".toList, "இவற்றையும் பார்க்கவும்".toList,
   "see also".toList, "மேலும் காண்க".toList]

def metaNames2 : List (List Char) :=
  ["மேற்கோள்கள்".toList, "references".toList,
   "குறிப்புகள்".toList, "சான்றுகள்".toList]

def metaNames3 : List (List Char) :=
  ["வெளி இணைப்புகள்".toList, "external links".toList,
   "புற இணைப்புகள்".toList]

def metaNames4 : List (List Char) :=
  ["நூற்பட்டியல்".toList, "bibliography".toList, "நூல்கள்".toList]

def metaNames5 : List (List Char) :=
  ["மேலும் படிக்க".toList, "further reading".toList]

/-- Try the section-name alternatives in order; a name counts only when
`\s*==` follows it (the regex backtracks to the next alternative otherwise,
which matters since some names are prefixes of others). -/
def metaAlt : List (List Char) → List Char → Bool
  | [], _ => false
  | nm :: nms, u =>
    (startsWithCI nm u &&
      startsWithL ['=', '='] ((u.drop nm.length).dropWhile pyWs)) ||
    metaAlt nms u

/-- Matcher of `==\s*(?:names)\s*==.*` (DOTALL, IGNORECASE): the trailing
greedy `.*` under DOTALL swallows the whole remaining text, so a match
truncates everything from the opening `==` on. -/
def tryMeta (nms : List (List Char)) : Matcher := fun u =>
  if startsWithL ['=', '='] u then
    if metaAlt nms ((u.drop 2).dropWhile pyWs) then some ([], []) else none
  else none

/-- `remove_metadata_sections`: the five truncating passes in source
order. -/
def remove_metadata_sections_list (u : List Char) : List Char :=
  scan (tryMeta metaNames5) (scan (tryMeta metaNames4) (scan (tryMeta metaNames3)
    (scan (tryMeta metaNames2) (scan (tryMeta metaNames1) u))))

def remove_metadata_sections (s : String) : String :=
  (remove_metadata_sections_list s.toList).asString

/- ===================== normalize_whitespace ===================== -/

/-- Matcher of `\n\s*\n\s*\n+` → `'\n\n'`: fires on a whitespace run
holding at least three newlines; the match reaches the run's last newline,
leaving any trailing non-newline whitespace in place. -/
def tryNl3 : Matcher := fun u =>
  match u with
  | c :: rest =>
    if c = '\n' then
      let w := rest.takeWhile pyWs
      if 3 ≤ ('\n' :: w).count '\n' then
        some (['\n', '\n'],
          (w.reverse.takeWhile (fun c => c ≠ '\n')).reverse ++ rest.drop w.length)
      else none
    else none
  | [] => none

/-- Matcher of `[ \t]+` → `' '`. -/
def trySpaceTab : Matcher := fun u =>
  match u with
  | c :: v =>
    if c = ' ' || c = '\t' then
      some ([' '], v.drop (v.takeWhile (fun d => d = ' ' || d = '\t')).length)
    else none
  | [] => none

def normalize_whitespace_list (u : List Char) : List Char :=
  scan trySpaceTab (scan tryNl3 u)

/- ===================== line processing ===================== -/

/-- The line-boundary characters of Python `str.splitlines`. -/
def isLineBreak (c : Char) : Bool :=
  c = '\n' || c = '\r' || c = '\x0b' || c = '\x0c' ||
  c = '\x1c' || c = '\x1d' || c = '\x1e' || c = '\x85' ||
  c = '\u2028' || c = '\u2029'

def pySplitlinesF : Nat → List Char → List (List Char)
  | _, [] => []
  | 0, u => [u]
  | f + 1, u =>
    let line := u.takeWhile (fun c => !isLineBreak c)
    match u.drop line.length with
    | [] => [line]
    | '\r' :: '\n' :: t => line :: pySplitlinesF f t
    | _ :: t => line :: pySplitlinesF f t

def pySplitlines (u : List Char) : List (List Char) := pySplitlinesF u.length u

/-- `should_skip_line`. -/
def should_skip_line_list (l : List Char) : Bool :=
  !l.isEmpty &&
    [[']', ']'], [')'], [')', ' ', ']', ']'], ['|'], ['|', '|']].contains l

/-- The groups of `re.match(r'^(=+)\s*(.*?)\s*(=+)$', line)`, resolved: on
an all-`=` line of length at least two the groups are (`len-1` equals,
empty, one equal); otherwise the line must start and end with `=`-runs, and
the groups are the leading run, the text between the runs trimmed of
whitespace, and the trailing run. -/
def headingParts (l : List Char) : Option (List Char × List Char × List Char) :=
  let g1 := l.takeWhile (fun c => c = '=')
  if g1.isEmpty then none
  else if l.all (fun c => c = '=') then
    if 2 ≤ l.length then some (l.take (l.length - 1), [], ['=']) else none
  else
    let t := (l.reverse.takeWhile (fun c => c = '=')).reverse
    if t.isEmpty then none
    else
      let r1 := (l.drop g1.length).dropWhile pyWs
      some (g1, ((r1.reverse.drop t.length).dropWhile pyWs).reverse, t)

/-- The headings skipped by `process_heading`. -/
def skipHeadings : List (List Char) :=
  ["இவற்றையும் பார்க்க".toList, "இவற்றையும் பார்க்கவும்".toList,
   "See also".toList, "மேலும் காண்க".toList,
   "மேற்கோள்கள்".toList, "References".toList,
   "குறிப்புகள்".toList, "சான்றுகள்".toList,
   "வெளி இணைப்புகள்".toList, "External links".toList,
   "புற இணைப்புகள்".toList,
   "நூற்பட்டியல்".toList, "Bibliography".toList, "நூல்கள்".toList,
   "மேலும் படிக்க".toList, "Further reading".toList,
   "பின்வருவனவற்றையும் பார்க்கவும்".toList, "உசாத்துணை".toList]

/-- `process_heading`. -/
def process_heading_list (l : List Char) : Bool × Option (List Char) :=
  match headingParts l with
  | none => (false, none)
  | some (g1, g2, g3) =>
    if g1.length = g3.length then
      let htext := convert_formatting_list (pyStrip g2)
      if skipHeadings.contains htext then (true, none)
      else (true, some (List.replicate (min g1.length 6) '#' ++ ' ' :: htext))
    else (false, none)

/-- `process_horizontal_rule` (`^-+$`). -/
def process_horizontal_rule_list (l : List Char) : Bool × Option (List Char) :=
  if !l.isEmpty && l.all (fun c => c = '-') then (true, some ['-', '-', '-'])
  else (false, none)

/-- `process_list_item` (`^([*#]+)\s*(.*)`). -/
def process_list_item_list (l : List Char) : Option (List Char) :=
  match l with
  | c :: _ =>
    if c = '*' || c = '#' then
      let markers := l.takeWhile (fun d => d = '*' || d = '#')
      let content := convert_formatting_list (pyStrip (l.drop markers.length))
      if c = '*' then
        some (List.replicate (2 * (markers.length - 1)) ' ' ++ '-' :: ' ' :: content)
      else
        some (List.replicate (2 * (markers.length - 1)) ' ' ++ '1' :: '.' :: ' ' :: content)
    else none
  | [] => none

/-- A stripped line opening with `|}` ends the table block collection. -/
def tableTermLine (ln : List Char) : Bool :=
  startsWithL ['|', '\x7d'] (pyStrip ln)

/-- `process_table_block`'s collection: the current line plus the following
lines up to and including the first `|}` line, all stripped; also returns
the lines after the block. -/
def collectTable (x : List Char) (rest : List (List Char)) :
    List (List Char) × List (List Char) :=
  let body := rest.takeWhile (fun ln => !tableTermLine ln)
  match rest.drop body.length with
  | [] => (pyStrip x :: body.map pyStrip, [])
  | t :: ts => (pyStrip x :: (body.map pyStrip ++ [pyStrip t]), ts)

/-- `process_lines_to_markdown`, fuelled by the number of lines. -/
def process_lines_F : Nat → List (List Char) → List (List Char)
  | _, [] => []
  | 0, _ => []
  | f + 1, x :: rest =>
    let line := pyStrip x
    if should_skip_line_list line then process_lines_F f rest
    else if startsWithL ['\x7b', '|'] line then
      let tb := collectTable x rest
      pySplitlines (convert_wikitable_lists tb.1) ++ process_lines_F f tb.2
    else
      match process_heading_list line with
      | (true, some h) => h :: process_lines_F f rest
      | (true, none) => process_lines_F f rest
      | (false, _) =>
        match process_horizontal_rule_list line with
        | (_, some hr) => hr :: process_lines_F f rest
        | (_, none) =>
          match process_list_item_list line with
          | some ll => ll :: process_lines_F f rest
          | none =>
            if line.isEmpty then [] :: process_lines_F f rest
            else (convert_formatting_list line ++ [' ', ' ']) :: process_lines_F f rest

def process_lines_to_markdown (ls : List (List Char)) : List (List Char) :=
  process_lines_F ls.length ls

/- ===================== wikitext_to_markdown ===================== -/

/-- The full conversion pipeline, stage by stage in source order. -/
def wikitext_to_markdown_list (u : List Char) : List Char :=
  let t1 := remove_html_comments_and_tags_list u
  let t2 := removeTemplates t1
  let t3 := removeCategories t2
  let t4 := remove_images_and_files_list t3
  let t5 := convert_external_links_list t4
  let t6 := convert_internal_links_list t5
  let t7 := remove_html_attributes_list t6
  let t8 := remove_metadata_sections_list t7
  let t9 := normalize_whitespace_list t8
  joinSep ['\n'] (process_lines_to_markdown (pySplitlines t9))

def wikitext_to_markdown (s : String) : String :=
  (wikitext_to_markdown_list s.toList).asString

/- ===================== matcher progress lemmas ===================== -/

theorem findLitCI_length {pat : List Char} : ∀ {u r : List Char},
    findLitCI pat u = some r → r.length ≤ u.length := by
  intro u
  induction u with
  | nil =>
    intro r h
    simp [findLitCI] at h
  | cons c cs ih =>
    intro r h
    rw [findLitCI] at h
    by_cases h1 : startsWithCI pat (c :: cs) = true
    · rw [if_pos h1] at h
      rw [← Option.some.inj h]
      simpa using List.length_drop ..
    · rw [if_neg h1] at h
      have := ih h
      simp only [List.length_cons]
      omega

theorem map_emp_some {o : Option (List Char)} {repl rest : List Char}
    (h : o.map (fun r => (([] : List Char), r)) = some (repl, rest)) :
    o = some rest := by
  rcases o with _ | r
  · simp at h
  · simp only [Option.map_some'] at h
    have h2 := Option.some.inj h
    injection h2 with h3 h4
    rw [h4]

theorem tryComment_shrinks : Shrinks tryComment := by
  intro c cs repl rest h
  rw [tryComment] at h
  by_cases h1 : startsWithL ['<', '!', '-', '-'] (c :: cs) = true
  · rw [if_pos h1] at h
    have h2 := findLitCI_length (map_emp_some h)
    have h3 := List.length_drop 4 (c :: cs)
    simp only [List.length_cons] at h2 h3
    omega
  · rw [if_neg h1] at h
    simp at h

theorem tryRefPair_shrinks : Shrinks tryRefPair := by
  intro c cs repl rest h
  rw [tryRefPair] at h
  by_cases h1 : startsWithCI ['<', 'r', 'e', 'f'] (c :: cs) = true
  · rw [if_pos h1] at h
    rcases h2 : ((c :: cs).drop 4).dropWhile (fun c => c ≠ '>') with _ | ⟨d, w⟩ <;>
      rw [h2] at h
    · simp at h
    · have h3 := findLitCI_length (map_emp_some h)
      have h4 : (d :: w).length ≤ ((c :: cs).drop 4).length := by
        rw [← h2]
        exact dropWhile_len_le _ _
      have h5 := List.length_drop 4 (c :: cs)
      simp only [List.length_cons] at h4 h5
      omega
  · rw [if_neg h1] at h
    simp at h

theorem tryRefSingle_shrinks : Shrinks tryRefSingle := by
  intro c cs repl rest h
  rw [tryRefSingle] at h
  by_cases h1 : startsWithCI ['<', 'r', 'e', 'f'] (c :: cs) = true
  · rw [if_pos h1] at h
    dsimp only at h
    by_cases h2 : (((c :: cs).drop 4).takeWhile (fun c => c ≠ '>')).reverse.head? =
        some '/'
    · rw [if_pos h2] at h
      rcases h3 : ((c :: cs).drop 4).drop
          (((c :: cs).drop 4).takeWhile (fun c => c ≠ '>')).length with _ | ⟨d, w⟩ <;>
        rw [h3] at h
      · simp at h
      · have h4 := Option.some.inj h
        injection h4 with h5 h6
        have h7 : (d :: w).length ≤ ((c :: cs).drop 4).length := by
          rw [← h3, List.length_drop]
          exact Nat.sub_le _ _
        have h8 := List.length_drop 4 (c :: cs)
        simp only [List.length_cons] at h7 h8
        rw [← h6]
        omega
    · rw [if_neg h2] at h
      simp at h
  · rw [if_neg h1] at h
    simp at h

theorem tryNowiki_shrinks : Shrinks tryNowiki := by
  intro c cs repl rest h
  rw [tryNowiki] at h
  by_cases h1 : startsWithCI ['<', 'n', 'o', 'w', 'i', 'k', 'i', '>'] (c :: cs) = true
  · rw [if_pos h1] at h
    have h2 := findLitCI_length (map_emp_some h)
    have h3 := List.length_drop 8 (c :: cs)
    simp only [List.length_cons] at h2 h3
    omega
  · rw [if_neg h1] at h
    simp at h

theorem tryBr_shrinks : Shrinks tryBr := by
  intro c cs repl rest h
  rw [tryBr] at h
  by_cases h1 : startsWithCI ['<', 'b', 'r'] (c :: cs) = true
  · rw [if_pos h1] at h
    have hdw : (((c :: cs).drop 3).dropWhile pyWs).length ≤ ((c :: cs).drop 3).length :=
      dropWhile_len_le _ _
    have h3 := List.length_drop 3 (c :: cs)
    rcases h2 : ((c :: cs).drop 3).dropWhile pyWs with _ | ⟨d, w⟩ <;> rw [h2] at h
    · simp at h
    · dsimp only at h
      rw [h2] at hdw
      simp only [List.length_cons] at hdw h3
      by_cases hd : d = '>'
      · rw [if_pos hd] at h
        have h4 := Option.some.inj h
        injection h4 with h5 h6
        rw [← h6]
        omega
      · rw [if_neg hd] at h
        by_cases hd2 : d = '/'
        · rw [if_pos hd2] at h
          rcases w with _ | ⟨e, w2⟩
          · simp at h
          · dsimp only at h
            by_cases he : e = '>'
            · rw [if_pos he] at h
              have h4 := Option.some.inj h
              injection h4 with h5 h6
              simp only [List.length_cons] at hdw
              rw [← h6]
              omega
            · rw [if_neg he] at h
              simp at h
        · rw [if_neg hd2] at h
          simp at h
  · rw [if_neg h1] at h
    simp at h

theorem tryGallery_shrinks : Shrinks tryGallery := by
  intro c cs repl rest h
  rw [tryGallery] at h
  by_cases h1 : startsWithCI ['<', 'g', 'a', 'l', 'l', 'e', 'r', 'y'] (c :: cs) = true
  · rw [if_pos h1] at h
    rcases h2 : ((c :: cs).drop 8).dropWhile (fun c => c ≠ '>') with _ | ⟨d, w⟩ <;>
      rw [h2] at h
    · simp at h
    · have h3 := findLitCI_length (map_emp_some h)
      have h4 : (d :: w).length ≤ ((c :: cs).drop 8).length := by
        rw [← h2]
        exact dropWhile_len_le _ _
      have h5 := List.length_drop 8 (c :: cs)
      simp only [List.length_cons] at h4 h5
      omega
  · rw [if_neg h1] at h
    simp at h

theorem imgBodyF_length : ∀ {f : Nat} {u r : List Char},
    imgBodyF f u = some r → r.length ≤ u.length := by
  intro f
  induction f with
  | zero =>
    intro u r h
    simp [imgBodyF] at h
  | succ f ih =>
    intro u r h
    rw [imgBodyF] at h
    have hdw : (u.dropWhile (fun c => !isBracketChar c)).length ≤ u.length :=
      dropWhile_len_le _ _
    rcases h1 : u.dropWhile (fun c => !isBracketChar c) with _ | ⟨d, t⟩ <;>
      rw [h1] at h hdw
    · simp at h
    · simp only [List.length_cons] at hdw
      dsimp only at h
      by_cases hd : d = ']'
      · rw [if_pos hd] at h
        rcases t with _ | ⟨e, r2⟩
        · simp at h
        · dsimp only at h
          by_cases he : e = ']'
          · rw [if_pos he] at h
            rw [← Option.some.inj h]
            simp only [List.length_cons] at hdw
            omega
          · rw [if_neg he] at h
            simp at h
      · rw [if_neg hd] at h
        by_cases hd2 : d = '['
        · rw [if_pos hd2] at h
          have hdw2 : (t.dropWhile (fun c => !isBracketChar c)).length ≤ t.length :=
            dropWhile_len_le _ _
          rcases h2 : t.dropWhile (fun c => !isBracketChar c) with _ | ⟨e, w⟩ <;>
            rw [h2] at h hdw2
          · simp at h
          · dsimp only at h
            by_cases he : e = ']'
            · rw [if_pos he] at h
              have h3 := ih h
              simp only [List.length_cons] at hdw2
              omega
            · rw [if_neg he] at h
              simp at h
        · rw [if_neg hd2] at h
          simp at h

theorem tryImage_shrinks : Shrinks tryImage := by
  intro c cs repl rest h
  rw [tryImage] at h
  by_cases h1 : startsWithL ['[', '['] (c :: cs) = true
  · rw [if_pos h1] at h
    dsimp only at h
    have hv1len : (if ((c :: cs).drop 2).head? = some ':' then
        ((c :: cs).drop 2).drop 1 else (c :: cs).drop 2).length ≤
        ((c :: cs).drop 2).length := by
      split
      · rw [List.length_drop]
        exact Nat.sub_le _ _
      · exact le_rfl
    rcases h2 : matchKw imgNames (if ((c :: cs).drop 2).head? = some ':' then
        ((c :: cs).drop 2).drop 1 else (c :: cs).drop 2) with _ | v2 <;>
      rw [h2] at h
    · simp at h
    · have h3 := matchKw_length h2
      rcases v2 with _ | ⟨d, v3⟩
      · simp at h
      · dsimp only at h
        by_cases hd : d = ':'
        · rw [if_pos hd] at h
          rcases h4 : imgBodyF v3.length v3 with _ | r <;> rw [h4] at h
          · simp at h
          · have h5 := imgBodyF_length h4
            have h6 := Option.some.inj (map_emp_some h)
            have h8 := List.length_drop 2 (c :: cs)
            rw [← h6]
            simp only [List.length_cons] at h3 h8 hv1len ⊢
            omega
        · rw [if_neg hd] at h
          simp at h
  · rw [if_neg h1] at h
    simp at h

theorem kwAltMatch_sub : ∀ {kws : List (List Char)} {u r : List Char},
    (∀ kw ∈ kws, kw ≠ []) → kwAltMatch kws u = some r → r.length + 1 ≤ u.length := by
  intro kws
  induction kws with
  | nil =>
    intro u r _ h
    simp [kwAltMatch] at h
  | cons kw kws ih =>
    intro u r hne h
    rw [kwAltMatch] at h
    by_cases h1 : startsWithL kw u = true
    · rw [if_pos h1] at h
      have hkw : 1 ≤ kw.length := by
        rcases hk : kw with _ | _
        · exact absurd hk (hne kw (List.mem_cons_self _ _))
        · simp
      have hlen := startsWithL_length h1
      rcases h2 : u.drop kw.length with _ | ⟨d, r2⟩ <;> rw [h2] at h
      · rw [← Option.some.inj h]
        simpa using hkw.trans hlen
      · dsimp only at h
        by_cases h3 : isWordChar d = true
        · rw [if_pos h3] at h
          exact ih (fun k hk => hne k (List.mem_cons_of_mem _ hk)) h
        · rw [if_neg h3] at h
          rw [← Option.some.inj h]
          have h4 := congrArg List.length h2
          simp only [List.length_cons, List.length_drop] at h4
          simp only [List.length_cons]
          omega
    · rw [if_neg h1] at h
      exact ih (fun k hk => hne k (List.mem_cons_of_mem _ hk)) h

theorem tryPx_sub : ∀ {u r : List Char}, tryPx u = some r →
    r.length + 1 ≤ u.length := by
  intro u r h
  rw [tryPx] at h
  rcases h1 : u.takeWhile (fun c => c.isDigit) with _ | ⟨d0, ds0⟩ <;> rw [h1] at h
  · simp at h
  · rw [if_neg (by simp)] at h
    have hle : (d0 :: ds0).length ≤ u.length := by
      rw [← h1]
      exact (List.takeWhile_sublist _).length_le
    rcases h2 : u.drop (d0 :: ds0).length with _ | ⟨c1, _ | ⟨c2, r2⟩⟩ <;>
      rw [h2] at h
    · simp at h
    · simp at h
    · have h5 := congrArg List.length h2
      simp only [List.length_cons, List.length_drop] at h5
      simp only [List.length_cons] at hle
      dsimp only at h
      by_cases h3 : (c1 = 'p' && c2 = 'x') = true
      · rw [if_pos h3] at h
        rcases r2 with _ | ⟨d, r3⟩
        · rw [← Option.some.inj h]
          simp only [List.length_nil]
          omega
        · dsimp only at h
          by_cases h6 : isWordChar d = true
          · rw [if_pos h6] at h
            simp at h
          · rw [if_neg h6] at h
            rw [← Option.some.inj h]
            simp only [List.length_cons] at h5 ⊢
            omega
      · rw [if_neg h3] at h
        simp at h

theorem tryImgKw_shrinks : ShrinksP tryImgKw := by
  intro p c cs repl rest q h
  rw [tryImgKw] at h
  by_cases h1 : (p.map isWordChar).getD false = true
  · rw [if_pos h1] at h
    simp at h
  · rw [if_neg h1] at h
    have hne : ∀ kw ∈ imgKeywords, kw ≠ [] := by decide
    rcases h2 : kwAltMatch imgKeywords (c :: cs) with _ | r1 <;> rw [h2] at h
    · rcases h3 : tryPx (c :: cs) with _ | r2 <;> rw [h3] at h
      · simp at h
      · have h4 := tryPx_sub h3
        simp only [List.length_cons] at h4
        rcases r2 with _ | ⟨d, r3⟩
        · dsimp only at h
          injection Option.some.inj h with h5 h6
          injection h6 with h7 h8
          rw [← h7]
          simp
        · dsimp only at h
          by_cases hd : d = '|'
          · rw [if_pos hd] at h
            injection Option.some.inj h with h5 h6
            injection h6 with h7 h8
            rw [← h7]
            simp only [List.length_cons] at h4
            omega
          · rw [if_neg hd] at h
            injection Option.some.inj h with h5 h6
            injection h6 with h7 h8
            rw [← h7]
            simp only [List.length_cons] at h4 ⊢
            omega
    · have h4 := kwAltMatch_sub hne h2
      simp only [List.length_cons] at h4
      rcases r1 with _ | ⟨d, r3⟩
      · dsimp only at h
        injection Option.some.inj h with h5 h6
        injection h6 with h7 h8
        rw [← h7]
        simp
      · dsimp only at h
        by_cases hd : d = '|'
        · rw [if_pos hd] at h
          injection Option.some.inj h with h5 h6
          injection h6 with h7 h8
          rw [← h7]
          simp only [List.length_cons] at h4
          omega
        · rw [if_neg hd] at h
          injection Option.some.inj h with h5 h6
          injection h6 with h7 h8
          rw [← h7]
          simp only [List.length_cons] at h4 ⊢
          omega

theorem tryParenLine_shrinks : ShrinksP tryParenLine := by
  intro p c cs repl rest q h
  rw [tryParenLine] at h
  by_cases h1 : (p = none || p = some '\n') = true
  · rw [if_pos h1] at h
    have hdw : ((c :: cs).dropWhile pyWs).length ≤ (c :: cs).length :=
      dropWhile_len_le _ _
    rcases h2 : (c :: cs).dropWhile pyWs with _ | ⟨d, v⟩ <;> rw [h2] at h hdw
    · simp at h
    · dsimp only at h
      by_cases hd : d = ')'
      · rw [if_pos hd] at h
        have hdw2 : (v.dropWhile pyWs).length ≤ v.length := dropWhile_len_le _ _
        rcases h3 : v.dropWhile pyWs with _ | ⟨e, w⟩ <;> rw [h3] at h hdw2
        · simp at h
        · dsimp only at h
          by_cases he : e = ']'
          · rw [if_pos he] at h
            rcases w with _ | ⟨e2, w2⟩
            · simp at h
            · dsimp only at h
              by_cases he2 : e2 = ']'
              · rw [if_pos he2] at h
                injection Option.some.inj h with h5 h6
                injection h6 with h7 h8
                rw [← h7]
                simp only [List.length_cons] at hdw hdw2 ⊢
                omega
              · rw [if_neg he2] at h
                simp at h
          · rw [if_neg he] at h
            simp at h
      · rw [if_neg hd] at h
        simp at h
  · rw [if_neg h1] at h
    simp at h

theorem tryParens_shrinks : Shrinks tryParens := by
  intro c cs repl rest h
  rw [tryParens] at h
  by_cases hc : c = '('
  · rw [if_pos hc] at h
    have hdw : (cs.dropWhile pyWs).length ≤ cs.length := dropWhile_len_le _ _
    rcases h2 : cs.dropWhile pyWs with _ | ⟨d, w⟩ <;> rw [h2] at h hdw
    · simp at h
    · dsimp only at h
      by_cases hd : d = ')'
      · rw [if_pos hd] at h
        injection Option.some.inj h with h5 h6
        rw [← h6]
        simp only [List.length_cons] at hdw
        omega
      · rw [if_neg hd] at h
        simp at h
  · rw [if_neg hc] at h
    simp at h

theorem tryExtLink_shrinks : Shrinks tryExtLink := by
  intro c cs repl rest h
  rw [tryExtLink] at h
  by_cases hc : c = '['
  · rw [if_pos hc] at h
    rcases h1 : schemeDrop cs with _ | v1 <;> rw [h1] at h <;>
        (try dsimp only at h)
    · exact absurd h (by simp)
    · have hv1 : v1.length ≤ cs.length := by
        rw [schemeDrop] at h1
        by_cases hs1 : startsWithL ['h', 't', 't', 'p', 's', ':', '/', '/'] cs = true
        · rw [if_pos hs1] at h1
          rw [← Option.some.inj h1, List.length_drop]
          exact Nat.sub_le _ _
        · rw [if_neg hs1] at h1
          by_cases hs2 : startsWithL ['h', 't', 't', 'p', ':', '/', '/'] cs = true
          · rw [if_pos hs2] at h1
            rw [← Option.some.inj h1, List.length_drop]
            exact Nat.sub_le _ _
          · rw [if_neg hs2] at h1
            by_cases hs3 : startsWithL ['f', 't', 'p', ':', '/', '/'] cs = true
            · rw [if_pos hs3] at h1
              rw [← Option.some.inj h1, List.length_drop]
              exact Nat.sub_le _ _
            · rw [if_neg hs3] at h1
              simp at h1
      (try dsimp only at h)
      by_cases h2 : (v1.takeWhile (fun c => !pyWs c && c ≠ ']')).isEmpty = true
      · rw [if_pos h2] at h
        simp at h
      · rw [if_neg h2] at h
        have hurl : (v1.drop (v1.takeWhile
            (fun c => !pyWs c && c ≠ ']')).length).length ≤ v1.length := by
          rw [List.length_drop]
          exact Nat.sub_le _ _
        rcases h3 : v1.drop (v1.takeWhile (fun c => !pyWs c && c ≠ ']')).length with
            _ | ⟨d, v2⟩ <;> rw [h3] at h hurl
        · simp at h
        · simp only [List.length_cons] at hurl
          (try dsimp only at h)
          by_cases hd : d = ']'
          · rw [if_pos hd] at h
            injection Option.some.inj h with h5 h6
            rw [← h6]
            omega
          · rw [if_neg hd] at h
            by_cases h4 : ((d :: v2).takeWhile pyWs).isEmpty = true
            · rw [if_pos h4] at h
              simp at h
            · rw [if_neg h4] at h
              have hws : ((d :: v2).drop ((d :: v2).takeWhile pyWs).length).length ≤
                  (d :: v2).length := by
                rw [List.length_drop]
                exact Nat.sub_le _ _
              rcases h5 : (d :: v2).drop ((d :: v2).takeWhile pyWs).length with
                  _ | ⟨e, v3⟩ <;> rw [h5] at h hws
              · simp at h
              · simp only [List.length_cons] at hws
                (try dsimp only at h)
                by_cases he : e = ']'
                · rw [if_pos he] at h
                  by_cases h6 : 2 ≤ ((d :: v2).takeWhile pyWs).length
                  · rw [if_pos h6] at h
                    rcases h7 : ((d :: v2).takeWhile pyWs).reverse with _ | ⟨lc, t⟩ <;>
                      rw [h7] at h
                    · simp at h
                    · injection Option.some.inj h with h8 h9
                      rw [← h9]
                      omega
                  · rw [if_neg h6] at h
                    simp at h
                · rw [if_neg he] at h
                  (try dsimp only at h)
                  by_cases h6 : ((e :: v3).takeWhile (fun c => c ≠ ']')).isEmpty = true
                  · rw [if_pos h6] at h
                    simp at h
                  · rw [if_neg h6] at h
                    have hlab : ((e :: v3).drop ((e :: v3).takeWhile
                        (fun c => c ≠ ']')).length).length ≤ (e :: v3).length := by
                      rw [List.length_drop]
                      exact Nat.sub_le _ _
                    rcases h7 : (e :: v3).drop ((e :: v3).takeWhile
                        (fun c => c ≠ ']')).length with _ | ⟨e2, w⟩ <;> rw [h7] at h hlab
                    · simp at h
                    · simp only [List.length_cons] at hlab
                      (try dsimp only at h)
                      by_cases he2 : e2 = ']'
                      · rw [if_pos he2] at h
                        injection Option.some.inj h with h8 h9
                        rw [← h9]
                        omega
                      · rw [if_neg he2] at h
                        simp at h
  · rw [if_neg hc] at h
    simp at h

theorem tryIntLink_shrinks : Shrinks tryIntLink := by
  intro c cs repl rest h
  rw [tryIntLink] at h
  by_cases h1 : startsWithL ['[', '['] (c :: cs) = true
  · rw [if_pos h1] at h
    (try dsimp only at h)
    by_cases h2 : (((c :: cs).drop 2).takeWhile
        (fun c => c ≠ '|' && c ≠ ']')).isEmpty = true
    · rw [if_pos h2] at h
      simp at h
    · rw [if_neg h2] at h
      have hd2 := List.length_drop 2 (c :: cs)
      have hpg : (((c :: cs).drop 2).drop (((c :: cs).drop 2).takeWhile
          (fun c => c ≠ '|' && c ≠ ']')).length).length ≤ ((c :: cs).drop 2).length := by
        rw [List.length_drop]
        exact Nat.sub_le _ _
      rcases h3 : ((c :: cs).drop 2).drop (((c :: cs).drop 2).takeWhile
          (fun c => c ≠ '|' && c ≠ ']')).length with _ | ⟨d, t⟩ <;> rw [h3] at h hpg
      · simp at h
      · simp only [List.length_cons] at hpg hd2
        (try dsimp only at h)
        by_cases hd : d = ']'
        · rw [if_pos hd] at h
          rcases t with _ | ⟨e, w⟩
          · simp at h
          · (try dsimp only at h)
            by_cases he : e = ']'
            · rw [if_pos he] at h
              injection Option.some.inj h with h5 h6
              rw [← h6]
              simp only [List.length_cons] at hpg
              omega
            · rw [if_neg he] at h
              simp at h
        · rw [if_neg hd] at h
          by_cases hd3 : d = '|'
          · rw [if_pos hd3] at h
            (try dsimp only at h)
            by_cases h4 : (t.takeWhile (fun c => c ≠ ']')).isEmpty = true
            · rw [if_pos h4] at h
              simp at h
            · rw [if_neg h4] at h
              have hlab : (t.drop (t.takeWhile (fun c => c ≠ ']')).length).length ≤
                  t.length := by
                rw [List.length_drop]
                exact Nat.sub_le _ _
              rcases h5 : t.drop (t.takeWhile (fun c => c ≠ ']')).length with
                  _ | ⟨e1, t2⟩ <;> rw [h5] at h hlab
              · simp at h
              · simp only [List.length_cons] at hlab
                (try dsimp only at h)
                by_cases he1 : e1 = ']'
                · rw [if_pos he1] at h
                  rcases t2 with _ | ⟨e2, w⟩
                  · simp at h
                  · (try dsimp only at h)
                    by_cases he2 : e2 = ']'
                    · rw [if_pos he2] at h
                      injection Option.some.inj h with h6 h7
                      rw [← h7]
                      simp only [List.length_cons] at hlab
                      omega
                    · rw [if_neg he2] at h
                      simp at h
                · rw [if_neg he1] at h
                  simp at h
          · rw [if_neg hd3] at h
            simp at h
  · rw [if_neg h1] at h
    simp at h

theorem tryMeta_some_elim {nms : List (List Char)} {u : List Char}
    {pr : List Char × List Char} (h : tryMeta nms u = some pr) :
    pr = ([], []) := by
  rw [tryMeta] at h
  by_cases h1 : startsWithL ['=', '='] u = true
  · rw [if_pos h1] at h
    by_cases h2 : metaAlt nms ((u.drop 2).dropWhile pyWs) = true
    · rw [if_pos h2] at h
      exact (Option.some.inj h).symm
    · rw [if_neg h2] at h
      simp at h
  · rw [if_neg h1] at h
    simp at h

theorem tryMeta_shrinks (nms : List (List Char)) : Shrinks (tryMeta nms) := by
  intro c cs repl rest h
  have h2 := tryMeta_some_elim h
  injection h2 with h3 h4
  rw [h4]
  simp

theorem tryNl3_shrinks : Shrinks tryNl3 := by
  intro c cs repl rest h
  rw [tryNl3] at h
  dsimp only at h
  by_cases hc : c = '\n'
  · rw [if_pos hc] at h
    by_cases h1 : 3 ≤ ('\n' :: cs.takeWhile pyWs).count '\n'
    · rw [if_pos h1] at h
      injection Option.some.inj h with h2 h3
      rw [← h3]
      have ht : ((cs.takeWhile pyWs).reverse.takeWhile
          (fun c => c ≠ '\n')).length ≤ (cs.takeWhile pyWs).length := by
        have := (List.takeWhile_sublist
          (l := (cs.takeWhile pyWs).reverse) (fun c => c ≠ '\n')).length_le
        simpa using this
      have hw : (cs.takeWhile pyWs).length ≤ cs.length :=
        (List.takeWhile_sublist _).length_le
      simp only [List.length_append, List.length_reverse, List.length_drop]
      omega
    · rw [if_neg h1] at h
      simp at h
  · rw [if_neg hc] at h
    simp at h

theorem trySpaceTab_shrinks : Shrinks trySpaceTab := by
  intro c cs repl rest h
  rw [trySpaceTab] at h
  by_cases hc : (c = ' ' || c = '\t') = true
  · rw [if_pos hc] at h
    injection Option.some.inj h with h2 h3
    rw [← h3]
    rw [List.length_drop]
    exact Nat.sub_le _ _
  · rw [if_neg hc] at h
    simp at h

/- ===================== checked (fuelled) pipeline ===================== -/

/-- A checked scan: `none` when the fuel runs out instead of returning the
unprocessed tail. -/
def scanCF (tm : Matcher) : Nat → List Char → Option (List Char)
  | _, [] => some []
  | 0, _ :: _ => none
  | f + 1, c :: cs =>
    match tm (c :: cs) with
    | some (repl, rest) => (scanCF tm f rest).map (fun r => repl ++ r)
    | none => (scanCF tm f cs).map (fun r => c :: r)

/-- Fuel equal to the input length suffices for every shrinking matcher:
the checked scan never hits its error branch and returns the scan's
value. -/
theorem scanCF_eq {tm : Matcher} (hs : Shrinks tm) :
    ∀ (f : Nat) (u : List Char), u.length ≤ f →
      scanCF tm f u = some (scan tm u) := by
  intro f
  induction f with
  | zero =>
    intro u hu
    obtain rfl : u = [] := List.length_eq_zero.mp (Nat.le_zero.mp hu)
    rfl
  | succ f ih =>
    intro u hu
    cases u with
    | nil => rfl
    | cons c cs =>
      simp only [List.length_cons] at hu
      rw [scanCF]
      rcases htm : tm (c :: cs) with _ | ⟨repl, rest⟩
      · dsimp only
        rw [scan_cons_none htm, ih cs (by omega)]
        rfl
      · have hlen := hs c cs repl rest htm
        dsimp only
        rw [scan_cons_some hs htm, ih rest (by omega)]
        rfl

theorem scanPF_congr {tm : MatcherP} (hs : ShrinksP tm) :
    ∀ (f f' : Nat) (p : Option Char) (u : List Char), u.length ≤ f →
      u.length ≤ f' → scanPF tm f p u = scanPF tm f' p u := by
  intro f
  induction f with
  | zero =>
    intro f' p u hu _
    obtain rfl : u = [] := List.length_eq_zero.mp (Nat.le_zero.mp hu)
    cases f' <;> rfl
  | succ f ih =>
    intro f' p u hu hu'
    cases u with
    | nil => cases f' <;> rfl
    | cons c cs =>
      cases f' with
      | zero => simp at hu'
      | succ f' =>
        rw [scanPF, scanPF]
        rcases htm : tm p (c :: cs) with _ | ⟨repl, rest, q⟩
        · dsimp only
          simp only [List.length_cons] at hu hu'
          rw [ih f' (some c) cs (by omega) (by omega)]
        · have hlen := hs p c cs repl rest q htm
          dsimp only
          simp only [List.length_cons] at hu hu'
          rw [ih f' q rest (by omega) (by omega)]

/-- A checked previous-character scan. -/
def scanPCF (tm : MatcherP) : Nat → Option Char → List Char → Option (List Char)
  | _, _, [] => some []
  | 0, _, _ :: _ => none
  | f + 1, p, c :: cs =>
    match tm p (c :: cs) with
    | some (repl, rest, q) => (scanPCF tm f q rest).map (fun r => repl ++ r)
    | none => (scanPCF tm f (some c) cs).map (fun r => c :: r)

theorem scanPCF_eq {tm : MatcherP} (hs : ShrinksP tm) :
    ∀ (f : Nat) (p : Option Char) (u : List Char), u.length ≤ f →
      scanPCF tm f p u = some (scanPF tm u.length p u) := by
  intro f
  induction f with
  | zero =>
    intro p u hu
    obtain rfl : u = [] := List.length_eq_zero.mp (Nat.le_zero.mp hu)
    rfl
  | succ f ih =>
    intro p u hu
    cases u with
    | nil => rfl
    | cons c cs =>
      simp only [List.length_cons] at hu
      rw [scanPCF]
      show _ = some (scanPF tm (cs.length + 1) p (c :: cs))
      rw [scanPF]
      rcases htm : tm p (c :: cs) with _ | ⟨repl, rest, q⟩
      · dsimp only
        rw [ih (some c) cs (by omega)]
        rfl
      · have hlen := hs p c cs repl rest q htm
        dsimp only
        rw [ih q rest (by omega)]
        rw [scanPF_congr hs rest.length cs.length q rest le_rfl hlen]
        rfl

theorem collectTable_len (x : List Char) (rest : List (List Char)) :
    (collectTable x rest).2.length ≤ rest.length := by
  rw [collectTable]
  rcases h : rest.drop (rest.takeWhile (fun ln => !tableTermLine ln)).length with
      _ | ⟨t, ts⟩ <;> dsimp only
  · simp
  · have h2 := congrArg List.length h
    simp only [List.length_cons, List.length_drop] at h2
    omega

theorem process_lines_F_congr : ∀ (f f' : Nat) (ls : List (List Char)),
    ls.length ≤ f → ls.length ≤ f' →
      process_lines_F f ls = process_lines_F f' ls := by
  intro f
  induction f with
  | zero =>
    intro f' ls hu _
    obtain rfl : ls = [] := List.length_eq_zero.mp (Nat.le_zero.mp hu)
    cases f' <;> rfl
  | succ f ih =>
    intro f' ls hu hu'
    cases ls with
    | nil => cases f' <;> rfl
    | cons x rest =>
      cases f' with
      | zero => simp at hu'
      | succ f' =>
        simp only [List.length_cons] at hu hu'
        rw [process_lines_F, process_lines_F]
        have hrec : process_lines_F f rest = process_lines_F f' rest :=
          ih f' rest (by omega) (by omega)
        have hrect : process_lines_F f (collectTable x rest).2 =
            process_lines_F f' (collectTable x rest).2 :=
          ih f' _ ((collectTable_len x rest).trans (by omega))
            ((collectTable_len x rest).trans (by omega))
        by_cases h1 : should_skip_line_list (pyStrip x) = true
        · rw [if_pos h1, if_pos h1]
          exact hrec
        · rw [if_neg h1, if_neg h1]
          by_cases h2 : startsWithL ['\x7b', '|'] (pyStrip x) = true
          · rw [if_pos h2, if_pos h2]
            dsimp only
            rw [hrect]
          · rw [if_neg h2, if_neg h2]
            rcases h3 : process_heading_list (pyStrip x) with ⟨b, ob⟩
            rcases b <;> rcases ob with _ | hl <;> dsimp only
            · rcases h4 : process_horizontal_rule_list (pyStrip x) with ⟨b2, ob2⟩
              rcases ob2 with _ | hr <;> dsimp only
              · rcases h5 : process_list_item_list (pyStrip x) with _ | ll <;>
                  dsimp only
                · by_cases h6 : (pyStrip x).isEmpty = true
                  · rw [if_pos h6, if_pos h6, hrec]
                  · rw [if_neg h6, if_neg h6, hrec]
                · rw [hrec]
              · rw [hrec]
            · rcases h4 : process_horizontal_rule_list (pyStrip x) with ⟨b2, ob2⟩
              rcases ob2 with _ | hr <;> dsimp only
              · rcases h5 : process_list_item_list (pyStrip x) with _ | ll <;>
                  dsimp only
                · by_cases h6 : (pyStrip x).isEmpty = true
                  · rw [if_pos h6, if_pos h6, hrec]
                  · rw [if_neg h6, if_neg h6, hrec]
                · rw [hrec]
              · rw [hrec]
            · rw [hrec]
            · rw [hrec]

/-- A checked line-processing loop: `none` when the fuel runs out. -/
def process_lines_CF : Nat → List (List Char) → Option (List (List Char))
  | _, [] => some []
  | 0, _ :: _ => none
  | f + 1, x :: rest =>
    let line := pyStrip x
    if should_skip_line_list line then process_lines_CF f rest
    else if startsWithL ['\x7b', '|'] line then
      let tb := collectTable x rest
      (process_lines_CF f tb.2).map
        (fun r => pySplitlines (convert_wikitable_lists tb.1) ++ r)
    else
      match process_heading_list line with
      | (true, some h) => (process_lines_CF f rest).map (fun r => h :: r)
      | (true, none) => process_lines_CF f rest
      | (false, _) =>
        match process_horizontal_rule_list line with
        | (_, some hr) => (process_lines_CF f rest).map (fun r => hr :: r)
        | (_, none) =>
          match process_list_item_list line with
          | some ll => (process_lines_CF f rest).map (fun r => ll :: r)
          | none =>
            if line.isEmpty then (process_lines_CF f rest).map (fun r => [] :: r)
            else (process_lines_CF f rest).map
              (fun r => (convert_formatting_list line ++ [' ', ' ']) :: r)

/-- Fuel equal to the number of lines suffices: every iteration consumes at
least one line (a table block consumes its whole extent). -/
theorem process_lines_CF_eq : ∀ (f : Nat) (ls : List (List Char)),
    ls.length ≤ f → process_lines_CF f ls = some (process_lines_to_markdown ls) := by
  intro f
  induction f with
  | zero =>
    intro ls hu
    obtain rfl : ls = [] := List.length_eq_zero.mp (Nat.le_zero.mp hu)
    rfl
  | succ f ih =>
    intro ls hu
    cases ls with
    | nil => rfl
    | cons x rest =>
      simp only [List.length_cons] at hu
      rw [process_lines_CF]
      show _ = some (process_lines_F (rest.length + 1) (x :: rest))
      rw [process_lines_F]
      have hrec : process_lines_CF f rest = some (process_lines_F f rest) := by
        rw [ih rest (by omega)]
        rw [show process_lines_to_markdown rest = process_lines_F rest.length rest
          from rfl]
        rw [process_lines_F_congr rest.length f rest le_rfl (by omega)]
      have hreceq : process_lines_F f rest = process_lines_F rest.length rest :=
        process_lines_F_congr f rest.length rest (by omega) le_rfl
      have hrect : process_lines_CF f (collectTable x rest).2 =
          some (process_lines_F f (collectTable x rest).2) := by
        rw [ih _ ((collectTable_len x rest).trans (by omega))]
        rw [show process_lines_to_markdown (collectTable x rest).2 =
          process_lines_F (collectTable x rest).2.length (collectTable x rest).2
          from rfl]
        rw [process_lines_F_congr (collectTable x rest).2.length f _ le_rfl
          ((collectTable_len x rest).trans (by omega))]
      have hrectq : process_lines_F f (collectTable x rest).2 =
          process_lines_F rest.length (collectTable x rest).2 :=
        process_lines_F_congr f rest.length _
          ((collectTable_len x rest).trans (by omega)) (collectTable_len x rest)
      by_cases h1 : should_skip_line_list (pyStrip x) = true
      · rw [if_pos h1, if_pos h1, hrec, hreceq]
      · rw [if_neg h1, if_neg h1]
        by_cases h2 : startsWithL ['\x7b', '|'] (pyStrip x) = true
        · rw [if_pos h2, if_pos h2]
          dsimp only
          rw [hrect, hrectq]
          rfl
        · rw [if_neg h2, if_neg h2]
          rcases h3 : process_heading_list (pyStrip x) with ⟨b, ob⟩
          rcases b <;> rcases ob with _ | hl <;> dsimp only
          · rcases h4 : process_horizontal_rule_list (pyStrip x) with ⟨b2, ob2⟩
            rcases ob2 with _ | hr <;> dsimp only
            · rcases h5 : process_list_item_list (pyStrip x) with _ | ll <;>
                dsimp only
              · by_cases h6 : (pyStrip x).isEmpty = true
                · rw [if_pos h6, if_pos h6, hrec, hreceq]
                  rfl
                · rw [if_neg h6, if_neg h6, hrec, hreceq]
                  rfl
              · rw [hrec, hreceq]
                rfl
            · rw [hrec, hreceq]
              rfl
          · rcases h4 : process_horizontal_rule_list (pyStrip x) with ⟨b2, ob2⟩
            rcases ob2 with _ | hr <;> dsimp only
            · rcases h5 : process_list_item_list (pyStrip x) with _ | ll <;>
                dsimp only
              · by_cases h6 : (pyStrip x).isEmpty = true
                · rw [if_pos h6, if_pos h6, hrec, hreceq]
                  rfl
                · rw [if_neg h6, if_neg h6, hrec, hreceq]
                  rfl
              · rw [hrec, hreceq]
                rfl
            · rw [hrec, hreceq]
              rfl
          · rw [hrec, hreceq]
          · rw [hrec, hreceq]
            rfl

/-- The HTML stage with every scan fuelled and checked. -/
def remove_html_checked (u : List Char) : Option (List Char) :=
  (scanCF tryComment u.length u).bind fun a1 =>
  (scanCF tryRefPair a1.length a1).bind fun a2 =>
  (scanCF tryRefSingle a2.length a2).bind fun a3 =>
  (scanCF tryNowiki a3.length a3).bind fun a4 =>
  (scanCF tryBr a4.length a4).bind fun a5 =>
  scanCF tryGallery a5.length a5

theorem remove_html_checked_eq (u : List Char) :
    remove_html_checked u = some (remove_html_comments_and_tags_list u) := by
  rw [remove_html_checked]
  rw [scanCF_eq tryComment_shrinks _ _ le_rfl, Option.some_bind]
  rw [scanCF_eq tryRefPair_shrinks _ _ le_rfl, Option.some_bind]
  rw [scanCF_eq tryRefSingle_shrinks _ _ le_rfl, Option.some_bind]
  rw [scanCF_eq tryNowiki_shrinks _ _ le_rfl, Option.some_bind]
  rw [scanCF_eq tryBr_shrinks _ _ le_rfl, Option.some_bind]
  rw [scanCF_eq tryGallery_shrinks _ _ le_rfl]
  rfl

theorem removeTemplatesChecked_eq2 (u : List Char) :
    removeTemplatesChecked u.length u = some (removeTemplates u) :=
  removeTemplatesChecked_eq u.length u le_rfl

def remove_categories_checked (u : List Char) : Option (List Char) :=
  (scanCF tryCategoryEn u.length u).bind fun c1 =>
  (scanCF tryCategoryTa c1.length c1).bind fun c2 =>
  scanCF tryCategoryBare c2.length c2

theorem remove_categories_checked_eq (u : List Char) :
    remove_categories_checked u = some (removeCategories u) := by
  rw [remove_categories_checked]
  rw [scanCF_eq tryCategoryEn_shrinks _ _ le_rfl, Option.some_bind]
  rw [scanCF_eq tryCategoryTa_shrinks _ _ le_rfl, Option.some_bind]
  rw [scanCF_eq tryCategoryBare_shrinks _ _ le_rfl]
  rfl

def remove_images_checked (u : List Char) : Option (List Char) :=
  (scanCF tryImage u.length u).bind fun d1 =>
  (scanCF tryImage d1.length d1).bind fun d2 =>
  (scanCF tryImage d2.length d2).bind fun d3 =>
  (scanPCF tryImgKw d3.length none d3).bind fun d4 =>
  (scanPCF tryParenLine d4.length none d4).bind fun d5 =>
  scanCF tryParens d5.length d5

theorem remove_images_checked_eq (u : List Char) :
    remove_images_checked u = some (remove_images_and_files_list u) := by
  rw [remove_images_checked]
  rw [scanCF_eq tryImage_shrinks _ _ le_rfl, Option.some_bind]
  rw [scanCF_eq tryImage_shrinks _ _ le_rfl, Option.some_bind]
  rw [scanCF_eq tryImage_shrinks _ _ le_rfl, Option.some_bind]
  rw [scanPCF_eq tryImgKw_shrinks _ _ _ le_rfl, Option.some_bind]
  rw [scanPCF_eq tryParenLine_shrinks _ _ _ le_rfl, Option.some_bind]
  rw [scanCF_eq tryParens_shrinks _ _ le_rfl]
  rfl

theorem convert_external_links_checked_eq (u : List Char) :
    scanCF tryExtLink u.length u = some (convert_external_links_list u) :=
  scanCF_eq tryExtLink_shrinks _ _ le_rfl

theorem convert_internal_links_checked_eq (u : List Char) :
    scanCF tryIntLink u.length u = some (convert_internal_links_list u) :=
  scanCF_eq tryIntLink_shrinks _ _ le_rfl

def remove_attrs_checked (u : List Char) : Option (List Char) :=
  (scanCF (tryAttrPlain '"') u.length u).bind fun g1 =>
  scanCF (tryAttrPlain apos) g1.length g1

theorem remove_attrs_checked_eq (u : List Char) :
    remove_attrs_checked u = some (remove_html_attributes_list u) := by
  rw [remove_attrs_checked]
  rw [scanCF_eq (tryAttrPlain_shrinks '"') _ _ le_rfl, Option.some_bind]
  rw [scanCF_eq (tryAttrPlain_shrinks apos) _ _ le_rfl]
  rfl

def remove_meta_checked (u : List Char) : Option (List Char) :=
  (scanCF (tryMeta metaNames1) u.length u).bind fun m1 =>
  (scanCF (tryMeta metaNames2) m1.length m1).bind fun m2 =>
  (scanCF (tryMeta metaNames3) m2.length m2).bind fun m3 =>
  (scanCF (tryMeta metaNames4) m3.length m3).bind fun m4 =>
  scanCF (tryMeta metaNames5) m4.length m4

theorem remove_meta_checked_eq (u : List Char) :
    remove_meta_checked u = some (remove_metadata_sections_list u) := by
  rw [remove_meta_checked]
  rw [scanCF_eq (tryMeta_shrinks metaNames1) _ _ le_rfl, Option.some_bind]
  rw [scanCF_eq (tryMeta_shrinks metaNames2) _ _ le_rfl, Option.some_bind]
  rw [scanCF_eq (tryMeta_shrinks metaNames3) _ _ le_rfl, Option.some_bind]
  rw [scanCF_eq (tryMeta_shrinks metaNames4) _ _ le_rfl, Option.some_bind]
  rw [scanCF_eq (tryMeta_shrinks metaNames5) _ _ le_rfl]
  rfl

def normalize_ws_checked (u : List Char) : Option (List Char) :=
  (scanCF tryNl3 u.length u).bind fun n1 =>
  scanCF trySpaceTab n1.length n1

theorem normalize_ws_checked_eq (u : List Char) :
    normalize_ws_checked u = some (normalize_whitespace_list u) := by
  rw [normalize_ws_checked]
  rw [scanCF_eq tryNl3_shrinks _ _ le_rfl, Option.some_bind]
  rw [scanCF_eq trySpaceTab_shrinks _ _ le_rfl]
  rfl

theorem process_lines_checked_eq (ls : List (List Char)) :
    process_lines_CF ls.length ls = some (process_lines_to_markdown ls) :=
  process_lines_CF_eq ls.length ls le_rfl

/-- The whole conversion pipeline with every loop fuelled and checked:
`none` would signal a stage hitting its fuel bound (the error branch). -/
def wikitext_to_markdown_checked (u : List Char) : Option (List Char) :=
  (remove_html_checked u).bind fun t1 =>
  (removeTemplatesChecked t1.length t1).bind fun t2 =>
  (remove_categories_checked t2).bind fun t3 =>
  (remove_images_checked t3).bind fun t4 =>
  (scanCF tryExtLink t4.length t4).bind fun t5 =>
  (scanCF tryIntLink t5.length t5).bind fun t6 =>
  (remove_attrs_checked t6).bind fun t7 =>
  (remove_meta_checked t7).bind fun t8 =>
  (normalize_ws_checked t8).bind fun t9 =>
  (process_lines_CF (pySplitlines t9).length (pySplitlines t9)).map fun ls =>
  joinSep ['\n'] ls

/-- C8: the top-level conversion is total: on every input string the
checked pipeline — in which every scanning loop carries explicit fuel and
returns `none` on exhaustion (the error branch) — returns `some` of exactly
`wikitext_to_markdown`'s output, so no error branch of any stage is
reachable. -/
theorem asString_toList (l : List Char) : (l.asString).toList = l := rfl

theorem wikitext_to_markdown_toList (s : String) :
    (wikitext_to_markdown s).toList = wikitext_to_markdown_list s.toList := by
  rw [wikitext_to_markdown]
  exact asString_toList _

theorem claim_C8_pipeline_total (s : String) :
    wikitext_to_markdown_checked s.toList =
      some ((wikitext_to_markdown s).toList) := by
  have h : ∀ u : List Char,
      wikitext_to_markdown_checked u = some (wikitext_to_markdown_list u) := by
    intro u
    rw [wikitext_to_markdown_checked, wikitext_to_markdown_list]
    (try dsimp only)
    rw [remove_html_checked_eq, Option.some_bind]
    generalize remove_html_comments_and_tags_list u = t1
    rw [removeTemplatesChecked_eq2, Option.some_bind]
    generalize removeTemplates t1 = t2
    rw [remove_categories_checked_eq, Option.some_bind]
    generalize removeCategories t2 = t3
    rw [remove_images_checked_eq, Option.some_bind]
    generalize remove_images_and_files_list t3 = t4
    rw [convert_external_links_checked_eq, Option.some_bind]
    generalize convert_external_links_list t4 = t5
    rw [convert_internal_links_checked_eq, Option.some_bind]
    generalize convert_internal_links_list t5 = t6
    rw [remove_attrs_checked_eq, Option.some_bind]
    generalize remove_html_attributes_list t6 = t7
    rw [remove_meta_checked_eq, Option.some_bind]
    generalize remove_metadata_sections_list t7 = t8
    rw [normalize_ws_checked_eq, Option.some_bind]
    generalize normalize_whitespace_list t8 = t9
    rw [process_lines_checked_eq, Option.map_some']
  rw [wikitext_to_markdown_toList]
  exact h s.toList

theorem scan_trunc_take (nms : List (List Char)) :
    ∀ u : List Char, ∃ n, scan (tryMeta nms) u = u.take n := by
  intro u
  induction u with
  | nil => exact ⟨0, rfl⟩
  | cons c cs ih =>
    rcases htm : tryMeta nms (c :: cs) with _ | pr
    · obtain ⟨n, hn⟩ := ih
      exact ⟨n + 1, by rw [scan_cons_none htm, hn]; rfl⟩
    · obtain rfl : pr = ([], []) := tryMeta_some_elim htm
      refine ⟨0, ?_⟩
      rw [scan_cons_some (tryMeta_shrinks nms) htm]
      rfl

theorem startsWithCI_length : ∀ {p u : List Char}, startsWithCI p u = true →
    p.length ≤ u.length := by
  intro p
  induction p with
  | nil => intro u _; simp
  | cons a ps ih =>
    intro u h
    cases u with
    | nil => simp [startsWithCI] at h
    | cons c cs =>
      rw [startsWithCI, Bool.and_eq_true] at h
      have := ih h.2
      simp only [List.length_cons]
      omega

theorem startsWithCI_extend : ∀ {p u v : List Char},
    startsWithCI p u = true → startsWithCI p (u ++ v) = true := by
  intro p
  induction p with
  | nil => intro u v _; rfl
  | cons a ps ih =>
    intro u v h
    cases u with
    | nil => simp [startsWithCI] at h
    | cons c cs =>
      rw [startsWithCI, Bool.and_eq_true] at h
      rw [List.cons_append, startsWithCI, Bool.and_eq_true]
      exact ⟨h.1, ih h.2⟩

theorem dropWhile_cons_append {p : Char → Bool} : ∀ {x : List Char}
    (v : List Char) {d : Char} {ds : List Char}, x.dropWhile p = d :: ds →
      (x ++ v).dropWhile p = d :: (ds ++ v) := by
  intro x
  induction x with
  | nil =>
    intro v d ds h
    exact absurd h (by simp)
  | cons c cs ih =>
    intro v d ds h
    rw [List.dropWhile_cons] at h
    rw [List.cons_append, List.dropWhile_cons]
    by_cases hp : p c = true
    · rw [if_pos hp] at h ⊢
      exact ih v h
    · rw [if_neg hp] at h ⊢
      injection h with h1 h2
      rw [h1, h2]

theorem metaAlt_nil : ∀ (nms : List (List Char)), metaAlt nms [] = false := by
  intro nms
  induction nms with
  | nil => rfl
  | cons nm ns ih =>
    rw [metaAlt, ih, Bool.or_false]
    cases nm with
    | nil => rfl
    | cons a ps => rfl

theorem metaAlt_extend : ∀ {nms : List (List Char)} {u : List Char}
    (v : List Char), metaAlt nms u = true → metaAlt nms (u ++ v) = true := by
  intro nms
  induction nms with
  | nil =>
    intro u v h
    simp [metaAlt] at h
  | cons nm ns ih =>
    intro u v h
    rw [metaAlt, Bool.or_eq_true] at h
    rw [metaAlt, Bool.or_eq_true]
    rcases h with h | h
    · left
      rw [Bool.and_eq_true] at h
      obtain ⟨h1, h2⟩ := h
      rw [Bool.and_eq_true]
      refine ⟨startsWithCI_extend h1, ?_⟩
      have hlen := startsWithCI_length h1
      rw [List.drop_append_of_le_length hlen]
      rcases hdw : (u.drop nm.length).dropWhile pyWs with _ | ⟨d, ds⟩
      · rw [hdw] at h2
        rw [show startsWithL ['=', '='] [] = false from rfl] at h2
        exact absurd h2 (by simp)
      · rw [hdw] at h2
        rw [dropWhile_cons_append v hdw]
        exact startsWithL_extend h2 ⟨v, rfl⟩
    · right
      exact ih v h

theorem tryMeta_extend {nms : List (List Char)} {u : List Char} (v : List Char)
    (h : (tryMeta nms u).isSome = true) : (tryMeta nms (u ++ v)).isSome = true := by
  rw [tryMeta] at h ⊢
  by_cases h1 : startsWithL ['=', '='] u = true
  · rw [if_pos h1] at h
    rw [if_pos (startsWithL_extend h1 ⟨v, rfl⟩)]
    by_cases h2 : metaAlt nms ((u.drop 2).dropWhile pyWs) = true
    · have hlen : 2 ≤ u.length := by simpa using startsWithL_length h1
      rw [List.drop_append_of_le_length hlen]
      rcases hdw : (u.drop 2).dropWhile pyWs with _ | ⟨d, ds⟩
      · rw [hdw, metaAlt_nil] at h2
        exact absurd h2 (by simp)
      · rw [hdw] at h2
        rw [dropWhile_cons_append v hdw]
        have h3 : metaAlt nms (d :: (ds ++ v)) = true := by
          rw [← List.cons_append]
          exact metaAlt_extend v h2
        rw [if_pos h3]
        rfl
    · rw [if_neg h2] at h
      simp at h
  · rw [if_neg h1] at h
    simp at h

/-- Some suffix of the text begins a full match of the metadata-heading
pattern. -/
def hasMetaP (nms : List (List Char)) : List Char → Bool
  | [] => false
  | c :: cs => (tryMeta nms (c :: cs)).isSome || hasMetaP nms cs

theorem hasMetaP_append {nms : List (List Char)} : ∀ {u : List Char}
    (v : List Char), hasMetaP nms u = true → hasMetaP nms (u ++ v) = true := by
  intro u
  induction u with
  | nil =>
    intro v h
    simp [hasMetaP] at h
  | cons c cs ih =>
    intro v h
    rw [hasMetaP, Bool.or_eq_true] at h
    rw [List.cons_append, hasMetaP, Bool.or_eq_true]
    rcases h with h | h
    · exact Or.inl (tryMeta_extend v h)
    · exact Or.inr (ih v h)

theorem hasMetaP_take {nms : List (List Char)} {u : List Char} (n : Nat)
    (h : hasMetaP nms u = false) : hasMetaP nms (u.take n) = false := by
  by_contra hc
  simp only [Bool.not_eq_false] at hc
  have h2 := hasMetaP_append (u.drop n) hc
  rw [List.take_append_drop] at h2
  rw [h2] at h
  exact absurd h (by simp)

/-- After a metadata pass, no suffix of the output matches its pattern. -/
theorem scan_tryMeta_noMatch (nms : List (List Char)) :
    ∀ u : List Char, hasMetaP nms (scan (tryMeta nms) u) = false := by
  intro u
  induction u with
  | nil => rfl
  | cons c cs ih =>
    rcases htm : tryMeta nms (c :: cs) with _ | pr
    · rw [scan_cons_none htm]
      have h1 : (tryMeta nms (c :: scan (tryMeta nms) cs)).isSome = false := by
        by_contra hc
        simp only [Bool.not_eq_false] at hc
        obtain ⟨n, hn⟩ := scan_trunc_take nms cs
        rw [hn] at hc
        have h2 := tryMeta_extend (cs.drop n) hc
        rw [show (c :: cs.take n) ++ cs.drop n = c :: cs by
          rw [List.cons_append, List.take_append_drop]] at h2
        rw [htm] at h2
        simp at h2
      rw [hasMetaP, h1, ih]
      rfl
    · obtain rfl : pr = ([], []) := tryMeta_some_elim htm
      rw [scan_cons_some (tryMeta_shrinks nms) htm]
      rfl

/-- A no-match property survives any later truncating pass. -/
theorem hasMetaP_scan_pre (nms nms2 : List (List Char)) (u : List Char)
    (h : hasMetaP nms u = false) :
    hasMetaP nms (scan (tryMeta nms2) u) = false := by
  obtain ⟨n, hn⟩ := scan_trunc_take nms2 u
  rw [hn]
  exact hasMetaP_take n h

/-- `pat` occurs in the text as a contiguous run. -/
def containsSeq (pat : List Char) : List Char → Bool
  | [] => pat.isEmpty
  | c :: cs => startsWithL pat (c :: cs) || containsSeq pat cs

/-- C3 counterexample: in the input `{{a\n== References ==\nb}}\nafter` the
line `== References ==` is a recognised metadata heading (the line
processor maps it to `(True, None)`), yet the full pipeline still emits the
line `after  ` that comes from after it: the unbalanced-looking template
open swallows the heading during template elimination, so the metadata
stage never sees it and later text survives. -/
theorem claim_C3_counterexample :
    (pySplitlines ("\x7b\x7ba\n== References ==\nb\x7d\x7d\nafter" :
        String).toList).contains ("== References ==".toList) = true ∧
    process_heading_list ("== References ==".toList) = (true, none) ∧
    wikitext_to_markdown "\x7b\x7ba\n== References ==\nb\x7d\x7d\nafter" =
      "\nafter  " ∧
    containsSeq ("after  ".toList)
      ((wikitext_to_markdown
        "\x7b\x7ba\n== References ==\nb\x7d\x7d\nafter").toList) = true := by
  refine ⟨by decide, by decide, by decide, by decide⟩

/-- C3 (amended, stage level): the metadata-section stage always returns a
prefix of its input (everything from the first matching heading on is cut,
text before it unchanged), and its output contains no complete match of
any of the five metadata-heading patterns. -/
theorem claim_C3_amended (s : String) :
    (∃ n, (remove_metadata_sections s).toList = s.toList.take n) ∧
    hasMetaP metaNames1 ((remove_metadata_sections s).toList) = false ∧
    hasMetaP metaNames2 ((remove_metadata_sections s).toList) = false ∧
    hasMetaP metaNames3 ((remove_metadata_sections s).toList) = false ∧
    hasMetaP metaNames4 ((remove_metadata_sections s).toList) = false ∧
    hasMetaP metaNames5 ((remove_metadata_sections s).toList) = false := by
  have hout : (remove_metadata_sections s).toList =
      remove_metadata_sections_list s.toList := by
    rw [remove_metadata_sections]
    exact asString_toList _
  rw [hout, remove_metadata_sections_list]
  refine ⟨?_, ?_, ?_, ?_, ?_, ?_⟩
  · obtain ⟨n1, h1⟩ := scan_trunc_take metaNames1 s.toList
    obtain ⟨n2, h2⟩ := scan_trunc_take metaNames2
      (scan (tryMeta metaNames1) s.toList)
    obtain ⟨n3, h3⟩ := scan_trunc_take metaNames3
      (scan (tryMeta metaNames2) (scan (tryMeta metaNames1) s.toList))
    obtain ⟨n4, h4⟩ := scan_trunc_take metaNames4
      (scan (tryMeta metaNames3) (scan (tryMeta metaNames2)
        (scan (tryMeta metaNames1) s.toList)))
    obtain ⟨n5, h5⟩ := scan_trunc_take metaNames5
      (scan (tryMeta metaNames4) (scan (tryMeta metaNames3)
        (scan (tryMeta metaNames2) (scan (tryMeta metaNames1) s.toList))))
    refine ⟨min (min (min (min n5 n4) n3) n2) n1, ?_⟩
    rw [h5, h4, h3, h2, h1, List.take_take, List.take_take, List.take_take,
      List.take_take]
  · exact hasMetaP_scan_pre _ _ _ (hasMetaP_scan_pre _ _ _
      (hasMetaP_scan_pre _ _ _ (hasMetaP_scan_pre _ _ _
        (scan_tryMeta_noMatch metaNames1 s.toList))))
  · exact hasMetaP_scan_pre _ _ _ (hasMetaP_scan_pre _ _ _
      (hasMetaP_scan_pre _ _ _ (scan_tryMeta_noMatch metaNames2 _)))
  · exact hasMetaP_scan_pre _ _ _ (hasMetaP_scan_pre _ _ _
      (scan_tryMeta_noMatch metaNames3 _))
  · exact hasMetaP_scan_pre _ _ _ (scan_tryMeta_noMatch metaNames4 _)
  · exact scan_tryMeta_noMatch metaNames5 _

theorem takeWhile_append_stop {p : Char → Bool} : ∀ {t : List Char}
    {d : Char} {r : List Char}, (∀ c ∈ t, p c = true) → p d = false →
      (t ++ d :: r).takeWhile p = t := by
  intro t
  induction t with
  | nil =>
    intro d r _ hd
    rw [List.nil_append, List.takeWhile_cons, if_neg (by simp [hd])]
  | cons a t2 ih =>
    intro d r h hd
    rw [List.cons_append, List.takeWhile_cons,
      if_pos (h a (List.mem_cons_self _ _))]
    rw [ih (fun c hc => h c (List.mem_cons_of_mem _ hc)) hd]

/-- C4 counterexample: the link `[[Help:A|{{x}}]]` targets the `Help:`
namespace, yet after the pipeline the final output still contains
`Help:A`: template elimination first rewrites the label to nothing, and the
resulting `[[Help:A|]]` no longer matches the link pattern (its label group
needs at least one character), so the namespace filter never fires. -/
theorem claim_C4_counterexample :
    isNsPage ("Help:A".toList) = true ∧
    wikitext_to_markdown "[[Help:A|\x7b\x7bx\x7d\x7d]]" = "[[Help:A|]]  " ∧
    containsSeq ("Help:A".toList)
      ((wikitext_to_markdown "[[Help:A|\x7b\x7bx\x7d\x7d]]").toList) = true := by
  refine ⟨by decide, by decide, by decide⟩

/-- C4 (amended, stage level): an intact namespace link — `[[t|l]]` or
`[[t]]` with a nonempty target `t` free of `|` and `]` whose prefix before
the first colon is a non-content namespace, and a nonempty label `l` free
of `]` — is replaced by the empty string by the internal-link stage, so
neither its target nor its label survives that stage. -/
theorem claim_C4_amended (t l : List Char) (ht : isNsPage t = true)
    (htc : ∀ c ∈ t, (decide (c ≠ '|') && decide (c ≠ ']')) = true)
    (ht0 : t ≠ []) (hlc : ∀ c ∈ l, decide (c ≠ ']') = true) (hl0 : l ≠ []) :
    convert_internal_links_list
        ('[' :: '[' :: (t ++ '|' :: (l ++ [']', ']']))) = [] ∧
    convert_internal_links_list ('[' :: '[' :: (t ++ [']', ']'])) = [] := by
  constructor
  · have hm : tryIntLink ('[' :: '[' :: (t ++ '|' :: (l ++ [']', ']']))) =
        some ([], []) := by
      rw [tryIntLink]
      rw [if_pos (show startsWithL ['[', '[']
        ('[' :: '[' :: (t ++ '|' :: (l ++ [']', ']']))) = true from rfl)]
      (try dsimp only)
      rw [show ('[' :: '[' :: (t ++ '|' :: (l ++ [']', ']']))).drop 2 =
        t ++ '|' :: (l ++ [']', ']']) from rfl]
      rw [takeWhile_append_stop (d := '|') htc (by decide)]
      rw [if_neg (by simpa using ht0)]
      rw [List.drop_left]
      (try dsimp only)
      rw [if_neg (show ¬(('|' : Char) = ']') by decide)]
      rw [if_pos (show ('|' : Char) = '|' from rfl)]
      (try dsimp only)
      rw [takeWhile_append_stop (d := ']') hlc (by decide)]
      rw [if_neg (by simpa using hl0)]
      rw [List.drop_left]
      (try dsimp only)
      rw [if_pos (show (']' : Char) = ']' from rfl)]
      (try dsimp only)
      rw [if_pos (show (']' : Char) = ']' from rfl), if_pos ht]
    rw [show convert_internal_links_list
      ('[' :: '[' :: (t ++ '|' :: (l ++ [']', ']']))) =
      scan tryIntLink ('[' :: '[' :: (t ++ '|' :: (l ++ [']', ']'])))
      from rfl]
    rw [scan_cons_some tryIntLink_shrinks hm]
    rfl
  · have hm : tryIntLink ('[' :: '[' :: (t ++ [']', ']'])) =
        some ([], []) := by
      rw [tryIntLink]
      rw [if_pos (show startsWithL ['[', '[']
        ('[' :: '[' :: (t ++ [']', ']'])) = true from rfl)]
      (try dsimp only)
      rw [show ('[' :: '[' :: (t ++ [']', ']'])).drop 2 = t ++ [']', ']']
        from rfl]
      rw [takeWhile_append_stop (d := ']') htc (by decide)]
      rw [if_neg (by simpa using ht0)]
      rw [List.drop_left]
      (try dsimp only)
      rw [if_pos (show (']' : Char) = ']' from rfl)]
      (try dsimp only)
      rw [if_pos (show (']' : Char) = ']' from rfl), if_pos ht]
    rw [show convert_internal_links_list ('[' :: '[' :: (t ++ [']', ']'])) =
      scan tryIntLink ('[' :: '[' :: (t ++ [']', ']'])) from rfl]
    rw [scan_cons_some tryIntLink_shrinks hm]
    rfl

theorem claim_C4_witness :
    (isNsPage ("Help:A".toList) = true ∧
      (∀ c ∈ ("Help:A".toList : List Char),
        (decide (c ≠ '|') && decide (c ≠ ']')) = true) ∧
      ("Help:A".toList : List Char) ≠ [] ∧
      (∀ c ∈ ("B".toList : List Char), decide (c ≠ ']') = true) ∧
      ("B".toList : List Char) ≠ []) ∧
    convert_internal_links_list
      ('[' :: '[' :: ("Help:A".toList ++ '|' :: ("B".toList ++ [']', ']']))) = [] :=
  ⟨⟨by decide, by decide, by decide, by decide, by decide⟩,
    (claim_C4_amended ("Help:A".toList) ("B".toList) (by decide) (by decide)
      (by decide) (by decide) (by decide)).1⟩

end TamilLLM
